import Mathlib

/-!
IPv4 header checksum, forwarding update and RIP codec.

A shallow embedding of `checksum.cpp`, `forwarding.cpp` and `protocol.cpp`.

* A buffer (`uint8_t *packet`) is a `List Nat`; `isBytes` says every cell holds a value below 256.
  Reading or writing outside the buffer is undefined in C and yields `none` here.
* `uint32_t` / `uint16_t` arithmetic is arithmetic on `Nat` reduced `% 2 ^ 32` / `% 2 ^ 16` at the
  places where the C type forces the reduction.
* A `for` loop whose bound is `b` and whose counter is `i` recurses on `b - i`, the exact number of
  counter values still to visit.
-/

namespace Router

/-! ## Buffers -/

/-- Every cell is a `uint8_t`. -/
def isBytes (packet : List Nat) : Prop := ∀ b ∈ packet, b < 256

instance (packet : List Nat) : Decidable (isBytes packet) := by
  unfold isBytes; infer_instance

/-- The read `packet[i]`; `none` outside the buffer. -/
def rd (packet : List Nat) (i : Nat) : Option Nat := packet[i]?

/-- The store `packet[i] = v` into a `uint8_t` cell (the value is truncated to 8 bits);
`none` outside the buffer. -/
def wr (packet : List Nat) (i v : Nat) : Option (List Nat) :=
  if i < packet.length then some (packet.set i (v % 256)) else none

/-! ## checksum.cpp / forwarding.cpp -/

/-- The inner loop
`while(hi) { checksum = (checksum << 16) >> 16; checksum = checksum + hi; hi = checksum>>16; }`
on the pair `(checksum, hi)` with `checksum : uint32_t`, `hi : uint16_t`.  The first argument
bounds the number of passes; `foldCarry_exit` shows that two passes always reach `hi = 0`, so
`foldCarry 2` is the loop run to completion. -/
def foldCarry : Nat → Nat → Nat → Nat × Nat
  | 0, checksum, hi => (checksum, hi)
  | fuel + 1, checksum, hi =>
    if hi ≠ 0 then
      let checksum := ((checksum <<< 16) % 2 ^ 32) >>> 16
      let checksum := (checksum + hi) % 2 ^ 32
      foldCarry fuel checksum ((checksum >>> 16) % 2 ^ 16)
    else (checksum, hi)

/-- One pass of the body of `for(int i = 0; i < header_len; i = i+2)`:
`checksum = checksum + packet[i+1] + (packet[i] << 8); hi = checksum>>16; while(hi) ...`. -/
def sumStep (packet : List Nat) (i checksum : Nat) : Option Nat :=
  (rd packet (i + 1)).bind fun lo =>
  (rd packet i).bind fun hi8 =>
  let checksum := (checksum + lo + (hi8 <<< 8)) % 2 ^ 32
  let hi := (checksum >>> 16) % 2 ^ 16
  some (foldCarry 2 checksum hi).1

/-- The loop `for(int i = 0; i < header_len; i = i+2)`; the first argument is `header_len - i`. -/
def sumLoop (packet : List Nat) : Nat → Nat → Nat → Option Nat
  | 0, _, checksum => some checksum
  | 1, i, checksum => sumStep packet i checksum
  | remaining + 2, i, checksum =>
    (sumStep packet i checksum).bind fun checksum => sumLoop packet remaining (i + 2) checksum

/-- The statement `checksum = ((~checksum)<<16)>>16;` on a `uint32_t`. -/
def onesComplement (checksum : Nat) : Nat :=
  (((2 ^ 32 - 1 - checksum % 2 ^ 32) <<< 16) % 2 ^ 32) >>> 16

/-- The block shared verbatim by `validateIPChecksum` (checksum.cpp 15-34, forwarding.cpp 10-29)
and by `forward` (forwarding.cpp 52-71): compute `header_len`, read `sum` from bytes 10-11, store
zero into bytes 10 and 11, sum the header words, complement.  Returns `(sum, checksum, packet)`
with `packet` the buffer as the block leaves it. -/
def checksumPass (packet : List Nat) : Option (Nat × Nat × List Nat) :=
  (rd packet 0).bind fun b0 =>
  let header_len := 4 * (b0 % 16)
  (rd packet 10).bind fun b10 =>
  (rd packet 11).bind fun b11 =>
  let sum := ((b10 <<< 8) + b11) % 2 ^ 16
  (wr packet 10 0).bind fun packet =>
  (wr packet 11 0).bind fun packet =>
  (sumLoop packet header_len 0 0).bind fun checksum =>
  let checksum := onesComplement checksum
  some (sum, checksum, packet)

/-- The function `validateIPChecksum(packet, len)` of checksum.cpp and of forwarding.cpp (the two
bodies differ only in `packet1 = packet; ... packet = packet1;`, which copies the pointer and
touches no byte).  The body never reads `len`, so the embedding takes the buffer alone.  Returns
the boolean together with the buffer after the call. -/
def validateIPChecksum (packet : List Nat) : Option (Bool × List Nat) :=
  (checksumPass packet).bind fun r => some (decide (r.2.1 = r.1), r.2.2)

/-- Lines 52-74 of forwarding.cpp, the recomputation inside `forward`: the shared block followed
by `packet[10]=checksum>>8; packet[11]=(checksum<<8)>>8;`.  Returns the buffer afterwards. -/
def writeChecksum (packet : List Nat) : Option (List Nat) :=
  (checksumPass packet).bind fun r =>
  let checksum := r.2.1
  (wr r.2.2 10 (checksum >>> 8)).bind fun packet =>
  wr packet 11 (((checksum <<< 8) % 2 ^ 32) >>> 8)

/-- The function `forward(packet, len)` of forwarding.cpp; `len` is only passed on to
`validateIPChecksum`.  Returns the boolean together with the buffer after the call.  `packet[8] - 1` is computed in `int` and truncated by the store, which is
`(packet[8] + 255) % 256`. -/
def forward (packet : List Nat) : Option (Bool × List Nat) :=
  (validateIPChecksum packet).bind fun v =>
  if !v.1 then some (false, v.2) else
  (rd v.2 8).bind fun ttl =>
  (wr v.2 8 (ttl + 256 - 1)).bind fun packet =>
  (writeChecksum packet).bind fun packet =>
  some (true, packet)

/-- The value `header_len = 4 * (packet[0]%16)` of a buffer. -/
def headerLen (packet : List Nat) : Nat := 4 * (packet.getD 0 0 % 16)

/-- The buffer with zero stored in the checksum field, bytes 10 and 11. -/
def zeroChecksum (packet : List Nat) : List Nat := (packet.set 10 0).set 11 0

/-! ## protocol.cpp -/

/-- Modelled from the spec: `rip.h` is not among the sources; this is the `RipEntry` declaration
quoted in the comment at protocol.cpp 11-19 (four `uint32_t` fields). -/
structure RipEntry where
  addr : Nat
  mask : Nat
  nexthop : Nat
  metric : Nat
deriving DecidableEq, Repr

/-- Modelled from the spec: `rip.h` is not among the sources; this is the `RipPacket` declaration
quoted in the comment at protocol.cpp 21-28.  `entries i` is the cell `entries[i]`; the declared
array has `RIP_MAX_ENTRY` cells, so an index from `RIP_MAX_ENTRY` on addresses memory behind it. -/
structure RipPacket where
  numEntries : Nat
  command : Nat
  entries : Nat → RipEntry

/-- Modelled from the spec: `#define RIP_MAX_ENTRY 25` of `rip.h`, quoted at protocol.cpp 10. -/
def RIP_MAX_ENTRY : Nat := 25

/-- The libc function `htonl` on a little-endian host (protocol.cpp 32: address 1.2.3.4 is
`0x04030201`): the 32-bit byte swap. -/
def htonl (x : Nat) : Nat :=
  ((x % 256) <<< 24) + (((x >>> 8) % 256) <<< 16) + (((x >>> 16) % 256) <<< 8) + ((x >>> 24) % 256)

/-- The expression `(a<<24)+(b<<16)+(c<<8)+d` on four bytes, stored into a `uint32_t`. -/
def word32 (a b c d : Nat) : Nat := ((a <<< 24) + (b <<< 16) + (c <<< 8) + d) % 2 ^ 32

/-- The expression `(packet[i]<<8)+packet[j]`. -/
def rd16 (packet : List Nat) (i j : Nat) : Option Nat :=
  (rd packet i).bind fun a => (rd packet j).bind fun b => some ((a <<< 8) + b)

/-- The expression `packet[i]|packet[j]`. -/
def rdOr (packet : List Nat) (i j : Nat) : Option Nat :=
  (rd packet i).bind fun a => (rd packet j).bind fun b => some (a ||| b)

/-- The expression `(packet[i]<<24)+(packet[j]<<16)+(packet[k]<<8)+packet[l]` stored into a
`uint32_t`. -/
def rd32 (packet : List Nat) (i j k l : Nat) : Option Nat :=
  (rd packet i).bind fun a => (rd packet j).bind fun b =>
  (rd packet k).bind fun c => (rd packet l).bind fun d => some (word32 a b c d)

/-- The body of the loop of `disassemble` for entry `i` (protocol.cpp 66-87).  The boolean is
`false` when one of the four `return false` is taken.  The bitwise `|` between the two boolean
operands of the family test and of the metric test is the boolean or. -/
def entryStep (packet : List Nat) (i : Nat) (output : RipPacket) : Option (Bool × RipPacket) :=
  (rd16 packet (32 + 20 * i) (33 + 20 * i)).bind fun family =>
  (rd packet 28).bind fun p28 =>
  if (p28 == 1 && family != 0) || (p28 == 2 && family != 2) then some (false, output) else
  (rdOr packet (34 + 20 * i) (35 + 20 * i)).bind fun tag =>
  if tag ≠ 0 then some (false, output) else
  (rd32 packet (40 + 20 * i) (41 + 20 * i) (42 + 20 * i) (43 + 20 * i)).bind fun mask =>
  let judge_mask := ((mask + 2 ^ 32 - 1) % 2 ^ 32) ||| mask
  if judge_mask ≠ 0xffffffff then some (false, output) else
  (rd32 packet (48 + 20 * i) (49 + 20 * i) (50 + 20 * i) (51 + 20 * i)).bind fun metric =>
  if metric < 1 || metric > 16 then some (false, output) else
  (rd32 packet (39 + 20 * i) (38 + 20 * i) (37 + 20 * i) (36 + 20 * i)).bind fun addr =>
  (rd32 packet (47 + 20 * i) (46 + 20 * i) (45 + 20 * i) (44 + 20 * i)).bind fun nexthop =>
  some (true,
    { output with
      command := p28
      entries := Function.update output.entries i
        { addr := addr
          mask := htonl mask
          nexthop := nexthop
          metric := htonl metric } })

/-- The loop `for(int i = 0; i<output->numEntries;i++)` of `disassemble`; the first argument is
`output->numEntries - i`. -/
def entriesLoop (packet : List Nat) : Nat → Nat → RipPacket → Option (Bool × RipPacket)
  | 0, _, output => some (true, output)
  | remaining + 1, i, output =>
    (entryStep packet i output).bind fun r =>
    if r.1 then entriesLoop packet remaining (i + 1) r.2 else some (false, r.2)

/-- The value `(total - 32)/20` for `total = (packet[2] << 8) + packet[3]`, computed in `int` (division truncates
toward zero) and stored into the `uint32_t` field `numEntries`. -/
def entryCount (total : Nat) : Nat :=
  ((Int.tdiv ((total : Int) - 32) 20) % (2 ^ 32 : Int)).toNat

/-- The function `disassemble(packet, len, output)` of protocol.cpp.  Returns the boolean together
with `*output` after the call. -/
def disassemble (packet : List Nat) (len : Nat) (output : RipPacket) : Option (Bool × RipPacket) :=
  (rd16 packet 2 3).bind fun total =>
  if total > len then some (false, output) else
  (rd packet 28).bind fun p28 =>
  if p28 != 1 && p28 != 2 then some (false, output) else
  (rd packet 29).bind fun p29 =>
  if p29 != 2 then some (false, output) else
  (rdOr packet 30 31).bind fun zeroField =>
  if zeroField ≠ 0 then some (false, output) else
  (rd16 packet 2 3).bind fun total =>
  let output := { output with numEntries := entryCount total }
  entriesLoop packet output.numEntries 0 output

/-- The four stores `buffer[i] = x&0xff; buffer[j] = x>>8&0xff; buffer[k] = x>>16&0xff;
buffer[l] = x>>24;` of a `uint32_t` value `x`. -/
def wr32 (buffer : List Nat) (i j k l x : Nat) : Option (List Nat) :=
  (wr buffer i (x &&& 0xff)).bind fun buffer =>
  (wr buffer j (x >>> 8 &&& 0xff)).bind fun buffer =>
  (wr buffer k (x >>> 16 &&& 0xff)).bind fun buffer =>
  wr buffer l (x >>> 24)

/-- The body of the loop of `assemble` for entry `i` (protocol.cpp 111-142). -/
def assembleEntry (rip : RipPacket) (i : Nat) (buffer : List Nat) : Option (List Nat) :=
  (wr buffer (4 + 20 * i) 0).bind fun buffer =>
  (wr buffer (5 + 20 * i) (if rip.command = 1 then 0 else 2)).bind fun buffer =>
  (wr buffer (7 + 20 * i) 0).bind fun buffer =>
  (wr buffer (6 + 20 * i) 0).bind fun buffer =>
  (wr32 buffer (8 + 20 * i) (9 + 20 * i) (10 + 20 * i) (11 + 20 * i)
    (rip.entries i).addr).bind fun buffer =>
  (wr32 buffer (12 + 20 * i) (13 + 20 * i) (14 + 20 * i) (15 + 20 * i)
    (rip.entries i).mask).bind fun buffer =>
  (wr32 buffer (16 + 20 * i) (17 + 20 * i) (18 + 20 * i) (19 + 20 * i)
    (rip.entries i).nexthop).bind fun buffer =>
  wr32 buffer (20 + 20 * i) (21 + 20 * i) (22 + 20 * i) (23 + 20 * i) (rip.entries i).metric

/-- The loop `for(int i = 0; i < count; i++)` of `assemble`; the first argument is `count - i`. -/
def assembleLoop (rip : RipPacket) : Nat → Nat → List Nat → Option (List Nat)
  | 0, _, buffer => some buffer
  | remaining + 1, i, buffer =>
    (assembleEntry rip i buffer).bind fun buffer => assembleLoop rip remaining (i + 1) buffer

/-- The function `assemble(rip, buffer)` of protocol.cpp.  Returns the returned length together
with the buffer after the call. -/
def assemble (rip : RipPacket) (buffer : List Nat) : Option (Nat × List Nat) :=
  (wr buffer 0 rip.command).bind fun buffer =>
  (wr buffer 1 2).bind fun buffer =>
  (wr buffer 3 0).bind fun buffer =>
  (wr buffer 2 0).bind fun buffer =>
  let count := rip.numEntries
  (assembleLoop rip count 0 buffer).bind fun buffer =>
  some ((4 + 20 * count) % 2 ^ 32, buffer)

/-! ## Wire fields of a RIP packet -/

/-- The big-endian 16-bit value held by bytes `i`, `i+1`. -/
def be16 (packet : List Nat) (i : Nat) : Nat := packet.getD i 0 * 256 + packet.getD (i + 1) 0

/-- The big-endian 32-bit value held by bytes `i .. i+3` (first byte most significant). -/
def be32 (packet : List Nat) (i : Nat) : Nat :=
  packet.getD i 0 * 16777216 + packet.getD (i + 1) 0 * 65536 + packet.getD (i + 2) 0 * 256 +
    packet.getD (i + 3) 0

/-- The 32-bit value whose least significant byte is byte `i` and whose most significant byte is
byte `i+3`. -/
def le32 (packet : List Nat) (i : Nat) : Nat :=
  packet.getD i 0 + packet.getD (i + 1) 0 * 256 + packet.getD (i + 2) 0 * 65536 +
    packet.getD (i + 3) 0 * 16777216

/-- The IPv4 total length, bytes 2-3. -/
def totalLength (packet : List Nat) : Nat := be16 packet 2

/-- The mask test `(mask-1)|mask == 0xffffffff` in 32-bit arithmetic. -/
def maskOk (m : Nat) : Prop := ((m + 2 ^ 32 - 1) % 2 ^ 32) ||| m = 0xffffffff

instance (m : Nat) : Decidable (maskOk m) := by
  unfold maskOk; infer_instance

/-- The four per-entry conditions on entry `i` of a packet: family 0 when the command is 1 and 2
when the command is 2, route tag zero, mask of the accepted shape, metric in `[1,16]`. -/
def entryOk (packet : List Nat) (i : Nat) : Prop :=
  (packet.getD 28 0 = 1 → be16 packet (32 + 20 * i) = 0) ∧
  (packet.getD 28 0 = 2 → be16 packet (32 + 20 * i) = 2) ∧
  packet.getD (34 + 20 * i) 0 = 0 ∧ packet.getD (35 + 20 * i) 0 = 0 ∧
  maskOk (be32 packet (40 + 20 * i)) ∧
  1 ≤ be32 packet (48 + 20 * i) ∧ be32 packet (48 + 20 * i) ≤ 16

instance (packet : List Nat) (i : Nat) : Decidable (entryOk packet i) := by
  unfold entryOk; infer_instance

/-- The four header conditions: total length at most `len`, command 1 or 2, version 2, zero
field zero. -/
def headerOk (packet : List Nat) (len : Nat) : Prop :=
  totalLength packet ≤ len ∧ (packet.getD 28 0 = 1 ∨ packet.getD 28 0 = 2) ∧
  packet.getD 29 0 = 2 ∧ packet.getD 30 0 = 0 ∧ packet.getD 31 0 = 0

instance (packet : List Nat) (len : Nat) : Decidable (headerOk packet len) := by
  unfold headerOk; infer_instance

/-- The acceptance condition of a packet: the header conditions and the entry conditions for
every entry index below `(T - 32) / 20`. -/
def acceptCond (packet : List Nat) (len : Nat) : Prop :=
  headerOk packet len ∧ ∀ i, i < (totalLength packet - 32) / 20 → entryOk packet i

instance (packet : List Nat) (len : Nat) : Decidable (acceptCond packet len) := by
  unfold acceptCond; infer_instance

/-- The malformations listed with the acceptance condition, each taken on its own: command 3,
version 1, a non-zero zero field, a total length above `len`, and, in some entry below the derived
count, family 2 with command 1, a non-zero route tag, mask `0x00FF00FF`, metric 0 or metric 17. -/
def listedDefect (packet : List Nat) (len : Nat) : Prop :=
  packet.getD 28 0 = 3 ∨ packet.getD 29 0 = 1 ∨ packet.getD 30 0 ≠ 0 ∨ packet.getD 31 0 ≠ 0 ∨
  len < totalLength packet ∨
  ∃ i, i < (totalLength packet - 32) / 20 ∧
    ((packet.getD 28 0 = 1 ∧ be16 packet (32 + 20 * i) = 2) ∨
      packet.getD (34 + 20 * i) 0 ≠ 0 ∨ packet.getD (35 + 20 * i) 0 ≠ 0 ∨
      be32 packet (40 + 20 * i) = 0x00FF00FF ∨
      be32 packet (48 + 20 * i) = 0 ∨ be32 packet (48 + 20 * i) = 17)

/-- The entry that entry `i` of a packet is decoded into. -/
def decodedEntry (packet : List Nat) (i : Nat) : RipEntry :=
  { addr := le32 packet (36 + 20 * i)
    mask := htonl (be32 packet (40 + 20 * i))
    nexthop := le32 packet (44 + 20 * i)
    metric := htonl (be32 packet (48 + 20 * i)) }

/-- The output after entry `i` of a packet has been stored: `command` and `entries[i]` are
overwritten. -/
def storeEntry (packet : List Nat) (i : Nat) (output : RipPacket) : RipPacket :=
  { output with
    command := packet.getD 28 0
    entries := Function.update output.entries i (decodedEntry packet i) }

/-- The 20 bytes of entry `i` on the wire as `assemble` produces them: family `00` then `00` for
command 1 and `02` otherwise, route tag `00 00`, then `addr`, `mask`, `nexthop`, `metric`, each
least significant byte first. -/
def entryBytes (rip : RipPacket) (i : Nat) : List Nat :=
  [0, if rip.command = 1 then 0 else 2, 0, 0,
   (rip.entries i).addr % 256, (rip.entries i).addr / 256 % 256,
   (rip.entries i).addr / 65536 % 256, (rip.entries i).addr / 16777216 % 256,
   (rip.entries i).mask % 256, (rip.entries i).mask / 256 % 256,
   (rip.entries i).mask / 65536 % 256, (rip.entries i).mask / 16777216 % 256,
   (rip.entries i).nexthop % 256, (rip.entries i).nexthop / 256 % 256,
   (rip.entries i).nexthop / 65536 % 256, (rip.entries i).nexthop / 16777216 % 256,
   (rip.entries i).metric % 256, (rip.entries i).metric / 256 % 256,
   (rip.entries i).metric / 65536 % 256, (rip.entries i).metric / 16777216 % 256]

/-- The buffer `b2` is the buffer `b1` with the bytes `bytes` stored from index `lo` on: same
length, `bytes` at `lo ..< lo + bytes.length`, every other byte as in `b1`. -/
def holdsAt (b2 b1 : List Nat) (lo : Nat) (bytes : List Nat) : Prop :=
  b2.length = b1.length ∧
  ∀ j, b2.getD j 0 =
    if lo ≤ j ∧ j < lo + bytes.length then bytes.getD (j - lo) 0 else b1.getD j 0

/-- The bytes that `assemble` produces for a message: `command, 2, 0, 0` and then the 20 bytes of
each entry below `numEntries`. -/
def encodedBytes (rip : RipPacket) : List Nat :=
  [rip.command % 256, 2, 0, 0] ++ (List.range rip.numEntries).flatMap (entryBytes rip)

/-! ## Sample inputs -/

/-- A 20-byte IPv4 header with a correct checksum `0xb861` and TTL 64. -/
def sampleHeader : List Nat :=
  [0x45, 0x00, 0x00, 0x73, 0x00, 0x00, 0x40, 0x00, 0x40, 0x11, 0xb8, 0x61,
   0xc0, 0xa8, 0x00, 0x01, 0xc0, 0xa8, 0x00, 0xc7]

/-- The header `sampleHeader` with its checksum corrupted to `0xb862`. -/
def corruptHeader : List Nat :=
  [0x45, 0x00, 0x00, 0x73, 0x00, 0x00, 0x40, 0x00, 0x40, 0x11, 0xb8, 0x62,
   0xc0, 0xa8, 0x00, 0x01, 0xc0, 0xa8, 0x00, 0xc7]

/-- An output structure holding values that no packet below decodes to. -/
def staleOutput : RipPacket := ⟨7, 9, fun _ => ⟨0, 0, 0, 0⟩⟩

/-- A response entry: family 2, tag 0, address 1.2.3.4, mask 255.255.255.0, next hop 5.6.7.8,
metric 1. -/
def sampleEntry : List Nat := [0, 2, 0, 0, 1, 2, 3, 4, 255, 255, 255, 0, 5, 6, 7, 8, 0, 0, 0, 1]

/-- The entry `sampleEntry` with the mask 255.0.255.0. -/
def badMaskEntry : List Nat := [0, 2, 0, 0, 1, 2, 3, 4, 255, 0, 255, 0, 5, 6, 7, 8, 0, 0, 0, 1]

/-- A packet of total length `T`: 28 bytes of IPv4 and UDP header with `T` in bytes 2-3, then the
RIP payload. -/
def ripFrame (T : Nat) (payload : List Nat) : List Nat :=
  [0x45, 0, T / 256, T % 256] ++ List.replicate 24 0 ++ payload

/-- A response with no entry, total length 32. -/
def emptyResponse : List Nat := ripFrame 32 [2, 2, 0, 0]

/-- A response of total length 72 whose first entry is valid and whose second entry has a
non-contiguous mask. -/
def secondEntryBad : List Nat := ripFrame 72 ([2, 2, 0, 0] ++ sampleEntry ++ badMaskEntry)

/-- A response of total length 552 = 32 + 20 * 26 with 26 valid entries. -/
def response26 : List Nat := ripFrame 552 ([2, 2, 0, 0] ++ (List.replicate 26 sampleEntry).flatten)

/-- A response of total length 52 with the single entry `sampleEntry`. -/
def oneEntryResponse : List Nat := ripFrame 52 ([2, 2, 0, 0] ++ sampleEntry)

/-- A message with command 2 and no entry. -/
def emptyMessage : RipPacket := ⟨0, 2, fun _ => ⟨0, 0, 0, 0⟩⟩

/-- A message with command 2 and the single entry that `sampleEntry` decodes to. -/
def oneEntryMessage : RipPacket := ⟨1, 2, fun _ => ⟨0x04030201, 0x00ffffff, 0x08070605, 0x01000000⟩⟩

/-- A response of total length 52 whose single entry has address 1.2.3.4, mask 255.255.255.0,
next hop 5.6.7.8 and metric 5. -/
def metricFiveResponse : List Nat :=
  ripFrame 52 [2, 2, 0, 0, 0, 2, 0, 0, 1, 2, 3, 4, 255, 255, 255, 0, 5, 6, 7, 8, 0, 0, 0, 5]

/-- An output structure whose `command` field holds 1 before the call. -/
def requestOutput : RipPacket := ⟨0, 1, fun _ => ⟨0, 0, 0, 0⟩⟩

/-- The plain integer sum of the first `n` big-endian 16-bit words of a buffer. -/
def wordSum (packet : List Nat) : Nat → Nat
  | 0 => 0
  | n + 1 => wordSum packet n + be16 packet (2 * n)

/-- One end-around-carry reduction of a total `T` to 16 bits: 0 for `T = 0`, otherwise
`((T - 1) mod 65535) + 1`. -/
def endAround (T : Nat) : Nat := if T = 0 then 0 else (T - 1) % 65535 + 1

/-- The buffer with bit `k` of byte `i` flipped. -/
def flipBit (packet : List Nat) (i k : Nat) : List Nat :=
  packet.set i (packet.getD i 0 ^^^ 2 ^ k)

/-- The header `sampleHeader` with TTL 0 and the matching checksum `0xf861`. -/
def ttlZeroHeader : List Nat :=
  [0x45, 0x00, 0x00, 0x73, 0x00, 0x00, 0x40, 0x00, 0x00, 0x11, 0xf8, 0x61,
   0xc0, 0xa8, 0x00, 0x01, 0xc0, 0xa8, 0x00, 0xc7]

/-- A 20-byte header with a correct checksum `0x71d9` whose last four bytes are `fe ff 00 00`. -/
def nibbleHeader : List Nat :=
  [0x45, 0x00, 0x00, 0x14, 0x00, 0x00, 0x00, 0x00, 0x40, 0x11, 0x71, 0xd9,
   0x0a, 0x00, 0x00, 0x01, 0xfe, 0xff, 0x00, 0x00]

/-- A response of total length 61: the entry `sampleEntry` followed by 9 bytes of a further,
incomplete entry. -/
def partialTailResponse : List Nat :=
  ripFrame 61 ([2, 2, 0, 0] ++ sampleEntry ++ [0, 2, 0, 0, 1, 2, 3, 4, 255])

/-- A buffer of 4 bytes whose total length field is 4. -/
def fourByteBuffer : List Nat := [0x45, 0, 0, 4]

/-- A buffer of 52 bytes with total length field 0, a response header and the entry
`sampleEntry`. -/
def zeroLengthResponse : List Nat := ripFrame 0 ([2, 2, 0, 0] ++ sampleEntry)

/-! ## Buffer lemmas -/

theorem rd_eq {p : List Nat} {i : Nat} (h : i < p.length) : rd p i = some (p.getD i 0) := by
  simp [rd, List.getD_eq_getElem?_getD, List.getElem?_eq_getElem h]
theorem rd_eq_none {p : List Nat} {i : Nat} (h : p.length ≤ i) : rd p i = none := by
  simp [rd, h]
theorem wr_eq {p : List Nat} {i : Nat} (v : Nat) (h : i < p.length) :
    wr p i v = some (p.set i (v % 256)) := by
  simp [wr, h]
theorem wr_eq_none {p : List Nat} {i : Nat} (v : Nat) (h : p.length ≤ i) :
    wr p i v = none := by
  simp [wr]; omega

theorem getD_set (p : List Nat) (i j v : Nat) :
    (p.set i v).getD j 0 = if i = j ∧ i < p.length then v else p.getD j 0 := by
  simp only [List.getD_eq_getElem?_getD, List.getElem?_set]
  by_cases h : i = j
  · subst h
    by_cases h2 : i < p.length
    · simp [h2]
    · simp [h2, List.getElem?_eq_none (Nat.le_of_not_lt h2)]
  · simp [h]

theorem zeroChecksum_length (p : List Nat) : (zeroChecksum p).length = p.length := by
  simp [zeroChecksum]

theorem zeroChecksum_getD (p : List Nat) (i : Nat) :
    (zeroChecksum p).getD i 0 = if i = 10 ∨ i = 11 then 0 else p.getD i 0 := by
  unfold zeroChecksum
  rw [getD_set, getD_set, List.length_set]
  by_cases h : i = 10
  · subst h
    by_cases h3 : 10 < p.length
    · simp [h3]
    · simp [h3, List.getElem?_eq_none (Nat.le_of_not_lt h3)]
  · by_cases h2 : i = 11
    · subst h2
      by_cases h3 : 11 < p.length
      · simp [h3]
      · simp [h3, List.getElem?_eq_none (Nat.le_of_not_lt h3)]
    · rw [if_neg (by omega), if_neg (by omega), if_neg (by omega)]

theorem zeroChecksum_set_set (p : List Nat) (a b : Nat) :
    zeroChecksum (((zeroChecksum p).set 10 a).set 11 b) = zeroChecksum p := by
  apply List.ext_getElem?
  intro i
  simp only [zeroChecksum, List.getElem?_set, List.length_set]
  split_ifs <;> rfl

theorem zeroChecksum_set8 (p : List Nat) (a : Nat) :
    zeroChecksum (p.set 8 a) = (zeroChecksum p).set 8 a := by
  apply List.ext_getElem?
  intro i
  simp only [zeroChecksum, List.getElem?_set, List.length_set]
  split_ifs <;> first | rfl | (exfalso; omega)

/-! ## The checksum loops -/

theorem low16_eq (c : Nat) : ((c <<< 16) % 2 ^ 32) >>> 16 = c % 65536 := by
  simp only [Nat.shiftLeft_eq, Nat.shiftRight_eq_div_pow, Nat.reducePow]
  omega

theorem foldCarry_succ (fuel c hi : Nat) :
    foldCarry (fuel + 1) c hi =
      if hi ≠ 0 then
        foldCarry fuel ((c % 65536 + hi) % 4294967296)
          (((c % 65536 + hi) % 4294967296 / 65536) % 65536)
      else (c, hi) := by
  simp only [foldCarry, low16_eq]
  simp only [Nat.shiftRight_eq_div_pow, Nat.reducePow]

theorem foldCarry_exit (c hi : Nat) (hhi : hi < 65536) : (foldCarry 2 c hi).2 = 0 := by
  rw [foldCarry_succ]
  split_ifs with h1
  · generalize hx : c % 65536 + hi = x
    have hx1 : x < 131071 := by omega
    rw [Nat.mod_eq_of_lt (show x < 4294967296 by omega), foldCarry_succ]
    rcases Nat.lt_or_ge x 65536 with h | h
    · have h0 : x / 65536 = 0 := by omega
      simp [h0]
    · have h0 : x / 65536 = 1 := by omega
      have h2 : (x % 65536 + 1) % 4294967296 / 65536 = 0 := by omega
      simp [h0, h2, foldCarry]
  · omega

/-- Closed form of the carry fold when the accumulator holds the sum of two 16-bit values. -/
theorem foldCarry_two (c : Nat) (hc : c < 131071) :
    (foldCarry 2 c ((c >>> 16) % 2 ^ 16)).1 = if c < 65536 then c else c - 65535 := by
  rw [foldCarry_succ, Nat.shiftRight_eq_div_pow]
  simp only [Nat.reducePow]
  split_ifs with h1 h2 h2
  · exfalso; omega
  · rw [foldCarry_succ]
    split_ifs with h3
    · exfalso; omega
    · simp only []; omega
  · rfl
  · exfalso; omega
theorem rd_isSome (p : List Nat) (i : Nat) : (rd p i).isSome = decide (i < p.length) := by
  by_cases h : i < p.length
  · simp [rd_eq h, h]
  · simp [rd_eq_none (Nat.le_of_not_lt h), h]

theorem sumStep_isSome (p : List Nat) (i c : Nat) :
    (sumStep p i c).isSome = true ↔ i + 1 < p.length := by
  by_cases h : i + 1 < p.length
  · simp [sumStep, rd_eq h, rd_eq (show i < p.length by omega), h]
  · simp [sumStep, rd_eq_none (Nat.le_of_not_lt h), h]

theorem sumLoop_isSome (p : List Nat) (r i c : Nat) :
    (sumLoop p r i c).isSome = true ↔ r = 0 ∨ i + r + r % 2 ≤ p.length := by
  induction r, i, c using sumLoop.induct p with
  | case1 i c => simp [sumLoop]
  | case2 i c => simp [sumLoop, sumStep_isSome]; omega
  | case3 r i c ih =>
    rw [sumLoop]
    have hstep := sumStep_isSome p i c
    cases hs : sumStep p i c with
    | none =>
      rw [hs] at hstep
      simp at hstep
      simp; omega
    | some c' =>
      rw [hs] at hstep
      simp at hstep
      simp only [Option.some_bind, ih c']; omega

theorem sumLoop_some_of_length {p q : List Nat} (hlen : q.length = p.length) {r i c d : Nat}
    (h : sumLoop p r i c = some d) (c' : Nat) : ∃ d', sumLoop q r i c' = some d' := by
  have h1 : (sumLoop p r i c).isSome = true := by simp [h]
  rw [sumLoop_isSome] at h1
  rw [← hlen, ← sumLoop_isSome q r i c'] at h1
  exact Option.isSome_iff_exists.mp h1

theorem checksumPass_eq (p : List Nat) (h : 12 ≤ p.length) :
    checksumPass p =
      (sumLoop (zeroChecksum p) (headerLen p) 0 0).bind fun c =>
        some ((p.getD 10 0 * 256 + p.getD 11 0) % 65536, onesComplement c, zeroChecksum p) := by
  unfold checksumPass
  rw [rd_eq (show 0 < p.length by omega), rd_eq (show 10 < p.length by omega),
    rd_eq (show 11 < p.length by omega)]
  simp only [Option.some_bind]
  rw [wr_eq 0 (show 10 < p.length by omega)]
  simp only [Option.some_bind]
  rw [wr_eq 0 (show 11 < (p.set 10 (0 % 256)).length by simp; omega)]
  simp only [Option.some_bind, Nat.shiftLeft_eq, Nat.reducePow, Nat.zero_mod, zeroChecksum,
    headerLen]

theorem checksumPass_none (p : List Nat) (h : p.length < 12) : checksumPass p = none := by
  unfold checksumPass
  by_cases h0 : 0 < p.length
  · rw [rd_eq h0]
    by_cases h10 : 10 < p.length
    · rw [rd_eq h10, rd_eq_none (show p.length ≤ 11 by omega)]; rfl
    · rw [rd_eq_none (show p.length ≤ 10 by omega)]; rfl
  · rw [rd_eq_none (show p.length ≤ 0 by omega)]; rfl

theorem onesComplement_lt (c : Nat) : onesComplement c < 65536 := by
  unfold onesComplement
  simp only [Nat.shiftLeft_eq, Nat.shiftRight_eq_div_pow, Nat.reducePow]
  omega

theorem onesComplement_eq (c : Nat) (h : c < 65536) : onesComplement c = 65535 - c := by
  unfold onesComplement
  simp only [Nat.shiftLeft_eq, Nat.shiftRight_eq_div_pow, Nat.reducePow]
  omega

theorem getD_lt_of_isBytes {p : List Nat} (hb : isBytes p) (i : Nat) : p.getD i 0 < 256 := by
  by_cases h : i < p.length
  · rw [List.getD_eq_getElem _ _ h]
    exact hb _ (List.getElem_mem h)
  · rw [List.getD_eq_default _ _ (Nat.le_of_not_lt h)]
    omega

theorem sumLoop_exists (p : List Nat) (h : headerLen p ≤ p.length) :
    ∃ c, sumLoop (zeroChecksum p) (headerLen p) 0 0 = some c := by
  apply Option.isSome_iff_exists.mp
  rw [sumLoop_isSome, zeroChecksum_length]
  unfold headerLen at *
  omega

theorem validate_eq (p : List Nat) (h12 : 12 ≤ p.length) {c : Nat}
    (hc : sumLoop (zeroChecksum p) (headerLen p) 0 0 = some c) :
    validateIPChecksum p =
      some (decide (onesComplement c = (p.getD 10 0 * 256 + p.getD 11 0) % 65536),
        zeroChecksum p) := by
  simp [validateIPChecksum, checksumPass_eq p h12, hc]

theorem writeChecksum_eq (p : List Nat) (h12 : 12 ≤ p.length) {c : Nat}
    (hc : sumLoop (zeroChecksum p) (headerLen p) 0 0 = some c) :
    writeChecksum p =
      some (((zeroChecksum p).set 10 (onesComplement c / 256)).set 11 (onesComplement c % 256)) := by
  have hlt := onesComplement_lt c
  have e1 : (onesComplement c >>> 8) % 256 = onesComplement c / 256 := by
    simp only [Nat.shiftRight_eq_div_pow, Nat.reducePow]; omega
  have e2 : (((onesComplement c <<< 8) % 2 ^ 32) >>> 8) % 256 = onesComplement c % 256 := by
    simp only [Nat.shiftLeft_eq, Nat.shiftRight_eq_div_pow, Nat.reducePow]; omega
  simp only [writeChecksum, checksumPass_eq p h12, hc, Option.some_bind]
  rw [wr_eq _ (by rw [zeroChecksum_length]; omega)]
  simp only [Option.some_bind]
  rw [wr_eq _ (by rw [List.length_set, zeroChecksum_length]; omega), e1, e2]

/-- Storing the recomputed checksum yields a buffer that validates. -/
theorem validate_stored (p : List Nat) (h12 : 12 ≤ p.length) {c : Nat}
    (hc : sumLoop (zeroChecksum p) (headerLen p) 0 0 = some c) :
    validateIPChecksum
        (((zeroChecksum p).set 10 (onesComplement c / 256)).set 11 (onesComplement c % 256)) =
      some (true, zeroChecksum p) := by
  have hlt := onesComplement_lt c
  set q := ((zeroChecksum p).set 10 (onesComplement c / 256)).set 11 (onesComplement c % 256)
    with hq
  have hlen : q.length = p.length := by simp [hq, zeroChecksum_length]
  have hz : zeroChecksum q = zeroChecksum p := zeroChecksum_set_set p _ _
  have h0 : headerLen q = headerLen p := by
    unfold headerLen
    rw [hq, getD_set, getD_set, zeroChecksum_getD]
    simp
  have h10 : q.getD 10 0 = onesComplement c / 256 := by
    rw [hq, getD_set, getD_set, List.length_set, zeroChecksum_length]
    simp; omega
  have h11 : q.getD 11 0 = onesComplement c % 256 := by
    rw [hq, getD_set, List.length_set, zeroChecksum_length]
    simp; omega
  rw [validate_eq q (by omega) (c := c) (by rw [hz, h0]; exact hc), hz, h10, h11]
  have : onesComplement c = (onesComplement c / 256 * 256 + onesComplement c % 256) % 65536 := by
    omega
  simp [← this]

theorem zeroChecksum_idem (p : List Nat) : zeroChecksum (zeroChecksum p) = zeroChecksum p := by
  apply List.ext_getElem?
  intro i
  simp only [zeroChecksum, List.getElem?_set, List.length_set]
  split_ifs <;> rfl

theorem validate_some_length {p : List Nat} {r : Bool × List Nat}
    (h : validateIPChecksum p = some r) :
    12 ≤ p.length ∧ ∃ c, sumLoop (zeroChecksum p) (headerLen p) 0 0 = some c := by
  by_cases h12 : 12 ≤ p.length
  · refine ⟨h12, ?_⟩
    cases hc : sumLoop (zeroChecksum p) (headerLen p) 0 0 with
    | none => simp [validateIPChecksum, checksumPass_eq p h12, hc] at h
    | some c => exact ⟨c, rfl⟩
  · simp [validateIPChecksum, checksumPass_none p (by omega)] at h

/-! ## Checksum and forwarding properties -/

/-- C3 (checksum round trip).  On every buffer holding at least `max 20 (4 * (byte0 % 16))`
bytes the recomputation used by `forward` succeeds; it leaves the buffer with bytes 10-11 zeroed
and then overwritten by the high and low byte of the complemented folded sum `c` of the header
words, and `validateIPChecksum` returns true on that buffer. -/
theorem checksum_round_trip (p : List Nat) (hlen : max 20 (4 * (p.getD 0 0 % 16)) ≤ p.length) :
    ∃ c q, sumLoop (zeroChecksum p) (headerLen p) 0 0 = some c ∧
      writeChecksum p = some q ∧
      q = ((zeroChecksum p).set 10 (onesComplement c / 256)).set 11 (onesComplement c % 256) ∧
      validateIPChecksum q = some (true, zeroChecksum p) := by
  have h12 : 12 ≤ p.length := by omega
  obtain ⟨c, hc⟩ := sumLoop_exists p (by unfold headerLen; omega)
  exact ⟨c, _, hc, writeChecksum_eq p h12 hc, rfl, validate_stored p h12 hc⟩

theorem checksum_round_trip_witness :
    max 20 (4 * (sampleHeader.getD 0 0 % 16)) ≤ sampleHeader.length ∧
    ∃ c q, sumLoop (zeroChecksum sampleHeader) (headerLen sampleHeader) 0 0 = some c ∧
      writeChecksum sampleHeader = some q ∧
      q = ((zeroChecksum sampleHeader).set 10 (onesComplement c / 256)).set 11
        (onesComplement c % 256) ∧
      validateIPChecksum q = some (true, zeroChecksum sampleHeader) :=
  ⟨by decide, checksum_round_trip sampleHeader (by decide)⟩

/-- C4 (forwarding TTL).  If `validateIPChecksum` returns true on a packet whose byte 8 is
`t > 0`, then `forward` returns true, byte 8 of the resulting packet is `t - 1`, and
`validateIPChecksum` returns true on the resulting packet. -/
theorem forward_decrements_ttl (p z : List Nat) (t : Nat) (hb : isBytes p)
    (hv : validateIPChecksum p = some (true, z)) (ht : p.getD 8 0 = t) (hpos : 0 < t) :
    ∃ q z', forward p = some (true, q) ∧ q.getD 8 0 = t - 1 ∧
      validateIPChecksum q = some (true, z') := by
  obtain ⟨h12, c, hc⟩ := validate_some_length hv
  have hz : z = zeroChecksum p := by
    rw [validate_eq p h12 hc] at hv
    simp only [Option.some.injEq, Prod.mk.injEq] at hv
    exact hv.2.symm
  have ht256 : t < 256 := ht ▸ getD_lt_of_isBytes hb 8
  have ht8 : (zeroChecksum p).getD 8 0 = t := by rw [zeroChecksum_getD]; simpa using ht
  set p8 := (zeroChecksum p).set 8 (t - 1) with hp8
  have hlen8 : p8.length = p.length := by simp [hp8, zeroChecksum_length]
  have hz8 : zeroChecksum p8 = p8 := by
    rw [hp8, zeroChecksum_set8, zeroChecksum_idem]
  have hh8 : headerLen p8 = headerLen p := by
    unfold headerLen
    rw [hp8, getD_set, zeroChecksum_getD]
    simp
  obtain ⟨c8, hc8⟩ := sumLoop_some_of_length (q := zeroChecksum p8)
    (by rw [zeroChecksum_length, hlen8, zeroChecksum_length]) hc 0
  rw [← hh8] at hc8
  refine ⟨_, zeroChecksum p8, ?_, ?_, validate_stored p8 (by omega) hc8⟩
  · unfold forward
    rw [hv, hz]
    simp only [Option.some_bind, Bool.not_true, Bool.false_eq_true, if_false]
    rw [rd_eq (by rw [zeroChecksum_length]; omega), ht8]
    simp only [Option.some_bind]
    rw [wr_eq _ (by rw [zeroChecksum_length]; omega)]
    have e : (t + 256 - 1) % 256 = t - 1 := by omega
    simp only [Option.some_bind, e]
    rw [← hp8, writeChecksum_eq p8 (by omega) hc8]
    simp
  · rw [getD_set, getD_set, hz8, hp8, getD_set, zeroChecksum_length]
    simp
    omega

theorem forward_decrements_ttl_witness :
    isBytes sampleHeader ∧
    validateIPChecksum sampleHeader = some (true, zeroChecksum sampleHeader) ∧
    sampleHeader.getD 8 0 = 64 ∧ 0 < 64 ∧
    ∃ q z', forward sampleHeader = some (true, q) ∧ q.getD 8 0 = 64 - 1 ∧
      validateIPChecksum q = some (true, z') :=
  ⟨by decide, by decide, by decide, by decide,
    forward_decrements_ttl sampleHeader (zeroChecksum sampleHeader) 64 (by decide) (by decide) (by decide) (by decide)⟩

/-- C5 (failure path of `forward`).  On a packet holding its header, `forward` returns false
exactly when the complemented folded sum `c` of the header with bytes 10-11 taken as zero differs
from the big-endian value originally in bytes 10-11; in that case the buffer keeps its length,
every byte other than bytes 10 and 11 (byte 8 included) is as before the call, and bytes 10 and
11 are zero. -/
theorem forward_failure_path (p : List Nat) (hb : isBytes p) (h12 : 12 ≤ p.length)
    (hl : 4 * (p.getD 0 0 % 16) ≤ p.length) :
    ∃ c b q, sumLoop (zeroChecksum p) (headerLen p) 0 0 = some c ∧
      forward p = some (b, q) ∧
      (b = false ↔ onesComplement c ≠ p.getD 10 0 * 256 + p.getD 11 0) ∧
      (b = false →
        q.length = p.length ∧ (∀ i, i ≠ 10 → i ≠ 11 → q.getD i 0 = p.getD i 0) ∧
        q.getD 10 0 = 0 ∧ q.getD 11 0 = 0) := by
  obtain ⟨c, hc⟩ := sumLoop_exists p (by unfold headerLen; omega)
  have h10 := getD_lt_of_isBytes hb 10
  have h11 := getD_lt_of_isBytes hb 11
  have hsum : (p.getD 10 0 * 256 + p.getD 11 0) % 65536 = p.getD 10 0 * 256 + p.getD 11 0 := by
    omega
  have hv := validate_eq p h12 hc
  rw [hsum] at hv
  by_cases hok : onesComplement c = p.getD 10 0 * 256 + p.getD 11 0
  · -- the checksum is valid: `forward` goes on and returns true
    rw [decide_eq_true hok] at hv
    set p8 := (zeroChecksum p).set 8 ((p.getD 8 0 + 256 - 1) % 256) with hp8
    have hlen8 : p8.length = p.length := by simp [hp8, zeroChecksum_length]
    have hh8 : headerLen p8 = headerLen p := by
      unfold headerLen
      rw [hp8, getD_set, zeroChecksum_getD]
      simp
    obtain ⟨c8, hc8⟩ := sumLoop_some_of_length (q := zeroChecksum p8)
      (by rw [zeroChecksum_length, hlen8, zeroChecksum_length]) hc 0
    rw [← hh8] at hc8
    refine ⟨c, true, ((zeroChecksum p8).set 10 (onesComplement c8 / 256)).set 11
      (onesComplement c8 % 256), hc, ?_,
      ⟨fun h => by simp at h, fun h => absurd hok h⟩, by simp⟩
    unfold forward
    rw [hv]
    simp only [Option.some_bind, Bool.not_true, Bool.false_eq_true, if_false]
    rw [rd_eq (by rw [zeroChecksum_length]; omega)]
    simp only [Option.some_bind]
    rw [wr_eq _ (by rw [zeroChecksum_length]; omega)]
    have e8 : (zeroChecksum p).getD 8 0 = p.getD 8 0 := by rw [zeroChecksum_getD]; simp
    simp only [Option.some_bind, e8]
    rw [← hp8, writeChecksum_eq p8 (by omega) hc8]
    rfl
  · rw [decide_eq_false hok] at hv
    refine ⟨c, false, zeroChecksum p, hc, ?_, ⟨fun _ => hok, fun _ => rfl⟩, fun _ => ?_⟩
    · unfold forward
      rw [hv]
      rfl
    · refine ⟨zeroChecksum_length p, fun i hi0 hi1 => ?_, ?_, ?_⟩
      · rw [zeroChecksum_getD]; simp [hi0, hi1]
      · rw [zeroChecksum_getD]; simp
      · rw [zeroChecksum_getD]; simp

theorem forward_failure_path_witness :
    isBytes corruptHeader ∧ 12 ≤ corruptHeader.length ∧
    4 * (corruptHeader.getD 0 0 % 16) ≤ corruptHeader.length ∧
    ∃ c b q, sumLoop (zeroChecksum corruptHeader) (headerLen corruptHeader) 0 0 = some c ∧
      forward corruptHeader = some (b, q) ∧
      (b = false ↔ onesComplement c ≠ corruptHeader.getD 10 0 * 256 + corruptHeader.getD 11 0) ∧
      (b = false →
        q.length = corruptHeader.length ∧
        (∀ i, i ≠ 10 → i ≠ 11 → q.getD i 0 = corruptHeader.getD i 0) ∧
        q.getD 10 0 = 0 ∧ q.getD 11 0 = 0) :=
  ⟨by decide, by decide, by decide,
    forward_failure_path corruptHeader (by decide) (by decide) (by decide)⟩

/-- C6 (the code at the failing input).  On `corruptHeader`, whose checksum field holds
`0xb8 0x62`, `forward` returns false and leaves zero in bytes 10 and 11: the buffer after the
call differs from the buffer before it. -/
theorem forward_failure_changes_buffer :
    forward corruptHeader = some (false, zeroChecksum corruptHeader) ∧
    corruptHeader.getD 10 0 = 0xb8 ∧ corruptHeader.getD 11 0 = 0x62 ∧
    (zeroChecksum corruptHeader).getD 10 0 = 0 ∧ (zeroChecksum corruptHeader).getD 11 0 = 0 ∧
    zeroChecksum corruptHeader ≠ corruptHeader := by
  decide

/-- C7 (the code at the failing input).  `validateIPChecksum` returns true on `sampleHeader`
and false on `corruptHeader`, and in both cases leaves zero in bytes 10 and 11, which held
`0xb8 0x61` (resp. `0xb8 0x62`) before the call. -/
theorem validate_changes_buffer :
    validateIPChecksum sampleHeader = some (true, zeroChecksum sampleHeader) ∧
    validateIPChecksum corruptHeader = some (false, zeroChecksum corruptHeader) ∧
    sampleHeader.getD 10 0 = 0xb8 ∧ sampleHeader.getD 11 0 = 0x61 ∧
    (zeroChecksum sampleHeader).getD 10 0 = 0 ∧ (zeroChecksum sampleHeader).getD 11 0 = 0 ∧
    zeroChecksum sampleHeader ≠ sampleHeader ∧ zeroChecksum corruptHeader ≠ corruptHeader := by
  decide

/-! ## Reading wire fields -/

theorem or_eq_zero_iff (a b : Nat) : a ||| b = 0 ↔ a = 0 ∧ b = 0 := by
  constructor
  · intro h
    constructor
    · apply Nat.eq_of_testBit_eq
      intro i
      have := congrArg (fun x => Nat.testBit x i) h
      simp only [Nat.testBit_or, Nat.zero_testBit, Bool.or_eq_false_iff] at this
      simpa using this.1
    · apply Nat.eq_of_testBit_eq
      intro i
      have := congrArg (fun x => Nat.testBit x i) h
      simp only [Nat.testBit_or, Nat.zero_testBit, Bool.or_eq_false_iff] at this
      simpa using this.2
  · rintro ⟨rfl, rfl⟩
    rfl

theorem rd_some {p : List Nat} {i v : Nat} (h : rd p i = some v) :
    i < p.length ∧ p.getD i 0 = v := by
  by_cases hi : i < p.length
  · rw [rd_eq hi] at h
    exact ⟨hi, Option.some.inj h⟩
  · rw [rd_eq_none (Nat.le_of_not_lt hi)] at h
    cases h

theorem rd16_some {p : List Nat} {i j v : Nat} (h : rd16 p i j = some v) :
    i < p.length ∧ j < p.length ∧ v = p.getD i 0 * 256 + p.getD j 0 := by
  simp only [rd16, Option.bind_eq_some] at h
  obtain ⟨a, ha, b, hb, hv⟩ := h
  obtain ⟨hi, rfl⟩ := rd_some ha
  obtain ⟨hj, rfl⟩ := rd_some hb
  refine ⟨hi, hj, ?_⟩
  rw [← Option.some.inj hv, Nat.shiftLeft_eq]

theorem rdOr_some {p : List Nat} {i j v : Nat} (h : rdOr p i j = some v) :
    i < p.length ∧ j < p.length ∧ (v = 0 ↔ p.getD i 0 = 0 ∧ p.getD j 0 = 0) := by
  simp only [rdOr, Option.bind_eq_some] at h
  obtain ⟨a, ha, b, hb, hv⟩ := h
  obtain ⟨hi, rfl⟩ := rd_some ha
  obtain ⟨hj, rfl⟩ := rd_some hb
  refine ⟨hi, hj, ?_⟩
  rw [← Option.some.inj hv, or_eq_zero_iff]

theorem word32_eq {a b c d : Nat} (ha : a < 256) (hb : b < 256) (hc : c < 256) (hd : d < 256) :
    word32 a b c d = a * 16777216 + b * 65536 + c * 256 + d := by
  simp only [word32, Nat.shiftLeft_eq, Nat.reducePow]
  omega

theorem rd32_some {p : List Nat} (hp : isBytes p) {i j k l v : Nat}
    (h : rd32 p i j k l = some v) :
    i < p.length ∧ j < p.length ∧ k < p.length ∧ l < p.length ∧
      v = p.getD i 0 * 16777216 + p.getD j 0 * 65536 + p.getD k 0 * 256 + p.getD l 0 := by
  simp only [rd32, Option.bind_eq_some] at h
  obtain ⟨a, ha, b, hb, c, hc, d, hd, hv⟩ := h
  obtain ⟨hi, rfl⟩ := rd_some ha
  obtain ⟨hj, rfl⟩ := rd_some hb
  obtain ⟨hk, rfl⟩ := rd_some hc
  obtain ⟨hl, rfl⟩ := rd_some hd
  refine ⟨hi, hj, hk, hl, ?_⟩
  rw [← Option.some.inj hv]
  exact word32_eq (getD_lt_of_isBytes hp _) (getD_lt_of_isBytes hp _) (getD_lt_of_isBytes hp _)
    (getD_lt_of_isBytes hp _)

theorem rd16_eq {p : List Nat} {i j : Nat} (hi : i < p.length) (hj : j < p.length) :
    rd16 p i j = some (p.getD i 0 * 256 + p.getD j 0) := by
  simp [rd16, rd_eq hi, rd_eq hj, Nat.shiftLeft_eq]

theorem rdOr_eq {p : List Nat} {i j : Nat} (hi : i < p.length) (hj : j < p.length) :
    rdOr p i j = some (p.getD i 0 ||| p.getD j 0) := by
  simp [rdOr, rd_eq hi, rd_eq hj]

theorem rd32_eq {p : List Nat} {i j k l : Nat} (hi : i < p.length) (hj : j < p.length)
    (hk : k < p.length) (hl : l < p.length) :
    rd32 p i j k l = some (word32 (p.getD i 0) (p.getD j 0) (p.getD k 0) (p.getD l 0)) := by
  simp [rd32, rd_eq hi, rd_eq hj, rd_eq hk, rd_eq hl]

/-! ## The decoding loop -/

theorem be16_eq (p : List Nat) {i j : Nat} (hj : j = i + 1) :
    be16 p i = p.getD i 0 * 256 + p.getD j 0 := by
  subst hj; simp only [be16]

theorem be32_eq (p : List Nat) {i j k l : Nat} (hj : j = i + 1) (hk : k = i + 2)
    (hl : l = i + 3) :
    be32 p i = p.getD i 0 * 16777216 + p.getD j 0 * 65536 + p.getD k 0 * 256 + p.getD l 0 := by
  subst hj hk hl; simp only [be32]

theorem le32_eq (p : List Nat) {i j k l : Nat} (hj : j = i + 1) (hk : k = i + 2)
    (hl : l = i + 3) :
    le32 p i = p.getD l 0 * 16777216 + p.getD k 0 * 65536 + p.getD j 0 * 256 + p.getD i 0 := by
  subst hj hk hl; simp only [le32]; omega

theorem entryStep_some {p : List Nat} (hp : isBytes p) {i : Nat} {out : RipPacket}
    {r : Bool × RipPacket} (h : entryStep p i out = some r) :
    r = if entryOk p i then (true, storeEntry p i out) else (false, out) := by
  unfold entryStep at h
  simp only [Option.bind_eq_some] at h
  obtain ⟨family, hfam, p28, h28, h⟩ := h
  obtain ⟨-, -, rfl⟩ := rd16_some hfam
  obtain ⟨-, rfl⟩ := rd_some h28
  rw [← be16_eq p (show 33 + 20 * i = 32 + 20 * i + 1 by omega)] at h
  split_ifs at h with c1
  · -- family test fails
    have hno : ¬ entryOk p i := by
      intro hok
      simp only [Bool.or_eq_true, Bool.and_eq_true, beq_iff_eq, bne_iff_ne] at c1
      rcases c1 with ⟨e, ne⟩ | ⟨e, ne⟩
      · exact ne (hok.1 e)
      · exact ne (hok.2.1 e)
    rw [if_neg hno]; exact (Option.some.inj h).symm
  · simp only [Option.bind_eq_some] at h
    obtain ⟨tag, htag, h⟩ := h
    obtain ⟨-, -, htag0⟩ := rdOr_some htag
    split_ifs at h with c2
    · have hno : ¬ entryOk p i := fun hok => c2 (htag0.mpr ⟨hok.2.2.1, hok.2.2.2.1⟩)
      rw [if_neg hno]; exact (Option.some.inj h).symm
    · simp only [Option.bind_eq_some] at h
      obtain ⟨mask, hmask, h⟩ := h
      obtain ⟨-, -, -, -, rfl⟩ := rd32_some hp hmask
      rw [← be32_eq p (show 41 + 20 * i = 40 + 20 * i + 1 by omega)
        (show 42 + 20 * i = 40 + 20 * i + 2 by omega)
        (show 43 + 20 * i = 40 + 20 * i + 3 by omega)] at h
      split_ifs at h with c3
      · have hno : ¬ entryOk p i := fun hok => c3 hok.2.2.2.2.1
        rw [if_neg hno]; exact (Option.some.inj h).symm
      · simp only [Option.bind_eq_some] at h
        obtain ⟨metric, hmetric, h⟩ := h
        obtain ⟨-, -, -, -, rfl⟩ := rd32_some hp hmetric
        rw [← be32_eq p (show 49 + 20 * i = 48 + 20 * i + 1 by omega)
          (show 50 + 20 * i = 48 + 20 * i + 2 by omega)
          (show 51 + 20 * i = 48 + 20 * i + 3 by omega)] at h
        split_ifs at h with c4
        · have hno : ¬ entryOk p i := by
            intro hok
            simp only [Bool.or_eq_true, decide_eq_true_eq] at c4
            have := hok.2.2.2.2.2
            omega
          rw [if_neg hno]; exact (Option.some.inj h).symm
        · simp only [Option.bind_eq_some] at h
          obtain ⟨addr, haddr, nexthop, hnext, h⟩ := h
          obtain ⟨-, -, -, -, rfl⟩ := rd32_some hp haddr
          obtain ⟨-, -, -, -, rfl⟩ := rd32_some hp hnext
          rw [← le32_eq p (show 37 + 20 * i = 36 + 20 * i + 1 by omega)
            (show 38 + 20 * i = 36 + 20 * i + 2 by omega)
            (show 39 + 20 * i = 36 + 20 * i + 3 by omega),
            ← le32_eq p (show 45 + 20 * i = 44 + 20 * i + 1 by omega)
            (show 46 + 20 * i = 44 + 20 * i + 2 by omega)
            (show 47 + 20 * i = 44 + 20 * i + 3 by omega)] at h
          have hok : entryOk p i := by
            simp only [Bool.or_eq_true, Bool.and_eq_true, beq_iff_eq, bne_iff_ne,
              decide_eq_true_eq, not_or, not_and, not_not, not_lt] at c1 c2 c3 c4
            exact ⟨c1.1, c1.2, (htag0.mp c2).1, (htag0.mp c2).2, c3, by omega, by omega⟩
          rw [if_pos hok, ← Option.some.inj h]
          rfl

theorem bind_exists {α β : Type} {x : Option α} {f : α → Option β} (hx : ∃ a, x = some a)
    (hf : ∀ a, ∃ b, f a = some b) : ∃ b, x.bind f = some b := by
  obtain ⟨a, rfl⟩ := hx
  exact hf a

theorem ite_exists {β : Type} {c : Prop} [Decidable c] {x y : Option β}
    (hx : c → ∃ b, x = some b) (hy : ¬ c → ∃ b, y = some b) :
    ∃ b, (if c then x else y) = some b := by
  by_cases h : c
  · rw [if_pos h]; exact hx h
  · rw [if_neg h]; exact hy h

theorem entryStep_exists {p : List Nat} (h28 : 28 < p.length) {i : Nat}
    (hi : 52 + 20 * i ≤ p.length) (out : RipPacket) : ∃ r, entryStep p i out = some r := by
  unfold entryStep
  refine bind_exists ⟨_, rd16_eq (by omega) (by omega)⟩ fun family => ?_
  refine bind_exists ⟨_, rd_eq h28⟩ fun p28 => ?_
  refine ite_exists (fun _ => ⟨_, rfl⟩) fun _ => ?_
  refine bind_exists ⟨_, rdOr_eq (by omega) (by omega)⟩ fun tag => ?_
  refine ite_exists (fun _ => ⟨_, rfl⟩) fun _ => ?_
  refine bind_exists ⟨_, rd32_eq (by omega) (by omega) (by omega) (by omega)⟩ fun mask => ?_
  dsimp only
  refine ite_exists (fun _ => ⟨_, rfl⟩) fun _ => ?_
  refine bind_exists ⟨_, rd32_eq (by omega) (by omega) (by omega) (by omega)⟩ fun metric => ?_
  refine ite_exists (fun _ => ⟨_, rfl⟩) fun _ => ?_
  refine bind_exists ⟨_, rd32_eq (by omega) (by omega) (by omega) (by omega)⟩ fun addr => ?_
  refine bind_exists ⟨_, rd32_eq (by omega) (by omega) (by omega) (by omega)⟩ fun nexthop => ?_
  exact ⟨_, rfl⟩
theorem entriesLoop_exists {p : List Nat} (h28 : 28 < p.length) (hp : isBytes p) :
    ∀ (r i : Nat) (out : RipPacket), 32 + 20 * (i + r) ≤ p.length →
      ∃ res, entriesLoop p r i out = some res := by
  intro r
  induction r with
  | zero => intro i out _; exact ⟨_, rfl⟩
  | succ r ih =>
    intro i out hlen
    obtain ⟨s, hs⟩ := entryStep_exists h28 (show 52 + 20 * i ≤ p.length by omega) out
    have hs2 := entryStep_some hp hs
    rw [entriesLoop, hs]
    simp only [Option.some_bind]
    split_ifs with hb
    · exact ih (i + 1) s.2 (by omega)
    · exact ⟨_, rfl⟩

/-- What the loop has done when it returns: `k` is the index at which it stopped. -/
theorem entriesLoop_some {p : List Nat} (hp : isBytes p) :
    ∀ (r i : Nat) (out : RipPacket) (b : Bool) (out' : RipPacket),
      entriesLoop p r i out = some (b, out') →
      ∃ k, i ≤ k ∧ k ≤ i + r ∧ (∀ j, i ≤ j → j < k → entryOk p j) ∧
        (b = true ↔ k = i + r) ∧ (b = false → ¬ entryOk p k) ∧
        out'.numEntries = out.numEntries ∧
        (∀ j, out'.entries j = if i ≤ j ∧ j < k then decodedEntry p j else out.entries j) ∧
        out'.command = if i < k then p.getD 28 0 else out.command := by
  intro r
  induction r with
  | zero =>
    intro i out b out' h
    simp only [entriesLoop, Option.some.injEq, Prod.mk.injEq] at h
    obtain ⟨rfl, rfl⟩ := h
    refine ⟨i, le_refl _, le_refl _, fun j h1 h2 => absurd h1 (by omega), by simp, by simp, rfl,
      fun j => ?_, by simp⟩
    rw [if_neg (by omega)]
  | succ r ih =>
    intro i out b out' h
    rw [entriesLoop] at h
    simp only [Option.bind_eq_some] at h
    obtain ⟨s, hs, h⟩ := h
    have hs2 := entryStep_some hp hs
    by_cases hok : entryOk p i
    · rw [if_pos hok] at hs2
      subst hs2
      simp only [if_true] at h
      obtain ⟨k, hk1, hk2, hk3, hk4, hk5, hk6, hk7, hk8⟩ := ih (i + 1) _ b out' h
      refine ⟨k, by omega, by omega, fun j h1 h2 => ?_, ?_, hk5, hk6, fun j => ?_, ?_⟩
      · by_cases hj : j = i
        · subst hj; exact hok
        · exact hk3 j (by omega) h2
      · rw [hk4]; omega
      · rw [hk7 j]
        by_cases hj : j = i
        · subst hj
          rw [if_neg (by omega), if_pos (by omega)]
          simp [storeEntry]
        · by_cases hj2 : i + 1 ≤ j ∧ j < k
          · rw [if_pos hj2, if_pos (by omega)]
          · rw [if_neg hj2, if_neg (by omega)]
            simp [storeEntry, Function.update, hj]
      · rw [hk8, if_pos (show i < k by omega)]
        split_ifs <;> rfl
    · rw [if_neg hok] at hs2
      subst hs2
      simp only [Bool.false_eq_true, if_false, Option.some.injEq, Prod.mk.injEq] at h
      obtain ⟨rfl, rfl⟩ := h
      refine ⟨i, le_refl _, by omega, fun j h1 h2 => absurd h1 (by omega), ?_, fun _ => hok, rfl,
        fun j => ?_, by simp⟩
      · simp
      · rw [if_neg (by omega)]

theorem entryCount_eq {T : Nat} (h : 32 ≤ T) (hT : T < 65536) :
    entryCount T = (T - 32) / 20 := by
  unfold entryCount
  have h1 : ((T : Int) - 32) = ((T - 32 : Nat) : Int) := by omega
  rw [h1, show (20 : Int) = ((20 : Nat) : Int) from rfl, ← Int.ofNat_tdiv]
  omega

theorem totalLength_eq (p : List Nat) : totalLength p = p.getD 2 0 * 256 + p.getD 3 0 := by
  simp only [totalLength, be16]

theorem totalLength_lt {p : List Nat} (hp : isBytes p) : totalLength p < 65536 := by
  have h2 := getD_lt_of_isBytes hp 2
  have h3 := getD_lt_of_isBytes hp 3
  rw [totalLength_eq]; omega

/-- What `disassemble` has done when it returns. -/
theorem disassemble_some {p : List Nat} {len : Nat} {out : RipPacket} {b : Bool}
    {out' : RipPacket} (h : disassemble p len out = some (b, out')) :
    (¬ headerOk p len → b = false ∧ out' = out) ∧
    (headerOk p len →
      entriesLoop p (entryCount (totalLength p)) 0
        { out with numEntries := entryCount (totalLength p) } = some (b, out')) := by
  unfold disassemble at h
  simp only [Option.bind_eq_some] at h
  obtain ⟨total, htotal, h⟩ := h
  obtain ⟨-, -, rfl⟩ := rd16_some htotal
  rw [← totalLength_eq] at h
  by_cases c1 : totalLength p > len
  · rw [if_pos c1] at h
    simp only [Option.some.injEq, Prod.mk.injEq] at h
    exact ⟨fun _ => ⟨h.1.symm, h.2.symm⟩, fun hh => absurd hh.1 (by omega)⟩
  rw [if_neg c1] at h
  simp only [Option.bind_eq_some] at h
  obtain ⟨p28, h28, h⟩ := h
  obtain ⟨-, rfl⟩ := rd_some h28
  by_cases c2 : (p.getD 28 0 != 1 && p.getD 28 0 != 2) = true
  · rw [if_pos c2] at h
    simp only [Option.some.injEq, Prod.mk.injEq] at h
    simp only [Bool.and_eq_true, bne_iff_ne] at c2
    exact ⟨fun _ => ⟨h.1.symm, h.2.symm⟩,
      fun hh => absurd hh.2.1 (by rintro (e | e); exact c2.1 e; exact c2.2 e)⟩
  rw [if_neg c2] at h
  simp only [Option.bind_eq_some] at h
  obtain ⟨p29, h29, h⟩ := h
  obtain ⟨-, rfl⟩ := rd_some h29
  by_cases c3 : (p.getD 29 0 != 2) = true
  · rw [if_pos c3] at h
    simp only [Option.some.injEq, Prod.mk.injEq] at h
    simp only [bne_iff_ne] at c3
    exact ⟨fun _ => ⟨h.1.symm, h.2.symm⟩, fun hh => absurd hh.2.2.1 c3⟩
  rw [if_neg c3] at h
  simp only [Option.bind_eq_some] at h
  obtain ⟨z, hz, h⟩ := h
  obtain ⟨-, -, hz0⟩ := rdOr_some hz
  by_cases c4 : z ≠ 0
  · rw [if_pos c4] at h
    simp only [Option.some.injEq, Prod.mk.injEq] at h
    exact ⟨fun _ => ⟨h.1.symm, h.2.symm⟩,
      fun hh => absurd (hz0.mpr ⟨hh.2.2.2.1, hh.2.2.2.2⟩) c4⟩
  rw [if_neg c4] at h
  simp only [Option.bind_eq_some] at h
  obtain ⟨total, htotal2, h⟩ := h
  obtain ⟨-, -, rfl⟩ := rd16_some htotal2
  rw [← totalLength_eq] at h
  have hok : headerOk p len := by
    simp only [Bool.and_eq_true, bne_iff_ne, not_and, not_not, ne_eq] at c2 c3 c4
    refine ⟨by omega, ?_, c3, (hz0.mp c4).1, (hz0.mp c4).2⟩
    by_cases e : p.getD 28 0 = 1
    · exact Or.inl e
    · exact Or.inr (c2 e)
  exact ⟨fun hh => absurd hok hh, fun _ => h⟩

theorem disassemble_exists {p : List Nat} (hp : isBytes p) (h32 : 32 ≤ p.length)
    (hT : 32 ≤ totalLength p) (hpres : totalLength p ≤ p.length) (len : Nat) (out : RipPacket) :
    ∃ r, disassemble p len out = some r := by
  unfold disassemble
  refine bind_exists ⟨_, rd16_eq (by omega) (by omega)⟩ fun total => ?_
  refine ite_exists (fun _ => ⟨_, rfl⟩) fun _ => ?_
  refine bind_exists ⟨_, rd_eq (by omega)⟩ fun p28 => ?_
  refine ite_exists (fun _ => ⟨_, rfl⟩) fun _ => ?_
  refine bind_exists ⟨_, rd_eq (by omega)⟩ fun p29 => ?_
  refine ite_exists (fun _ => ⟨_, rfl⟩) fun _ => ?_
  refine bind_exists ⟨_, rdOr_eq (by omega) (by omega)⟩ fun z => ?_
  refine ite_exists (fun _ => ⟨_, rfl⟩) fun _ => ?_
  rw [rd16_eq (show 2 < p.length by omega) (show 3 < p.length by omega), ← totalLength_eq]
  simp only [Option.some_bind]
  apply entriesLoop_exists (by omega) hp
  rw [entryCount_eq hT (totalLength_lt hp)]
  omega

/-- When the header conditions hold and the decoder returns, it returns true exactly when every
entry below the derived count passes its checks. -/
theorem disassemble_true_iff {p : List Nat} (hp : isBytes p) {len : Nat} {out : RipPacket}
    {b : Bool} {out' : RipPacket} (h : disassemble p len out = some (b, out')) :
    b = true ↔ headerOk p len ∧ ∀ i, i < entryCount (totalLength p) → entryOk p i := by
  obtain ⟨h1, h2⟩ := disassemble_some h
  by_cases hh : headerOk p len
  · obtain ⟨k, -, hk2, hk3, hk4, hk5, -⟩ := entriesLoop_some hp _ _ _ _ _ (h2 hh)
    rw [hk4]
    constructor
    · intro e
      exact ⟨hh, fun i hi => hk3 i (Nat.zero_le _) (by omega)⟩
    · rintro ⟨-, hall⟩
      by_contra hne
      have hb : b = false := by
        cases b
        · rfl
        · exact absurd (hk4.mp rfl) hne
      exact hk5 hb (hall k (by omega))
  · have := (h1 hh).1
    subst this
    simp [hh]

/-! ## Decoder properties -/

/-- C2 (acceptance condition of `disassemble`).  On a buffer of at least 32 bytes whose total
length `T` is at least 32 and whose first `T` bytes are present, `disassemble` returns, and it
returns true if and only if `T <= len`, the command is 1 or 2, the version is 2, the zero field is
zero, and every entry below `(T - 32) / 20` has the family matching the command, a zero route tag,
a mask of the accepted shape and a metric in `[1,16]`; each of the listed malformations on its
own makes it return false. -/
theorem disassemble_accepts_iff (p : List Nat) (len : Nat) (out : RipPacket) (hp : isBytes p)
    (h32 : 32 ≤ p.length) (hT : 32 ≤ totalLength p) (hpres : totalLength p ≤ p.length) :
    ∃ b out', disassemble p len out = some (b, out') ∧
      (b = true ↔ acceptCond p len) ∧ (listedDefect p len → b = false) := by
  obtain ⟨⟨b, out'⟩, h⟩ := disassemble_exists hp h32 hT hpres len out
  have hiff := disassemble_true_iff hp h
  rw [entryCount_eq hT (totalLength_lt hp)] at hiff
  have hacc : b = true ↔ acceptCond p len := hiff
  refine ⟨b, out', h, hacc, fun hd => ?_⟩
  have hno : ¬ acceptCond p len := by
    rintro ⟨⟨t1, t2, t3, t4, t5⟩, hall⟩
    rcases hd with d | d | d | d | d | ⟨i, hi, d⟩
    · omega
    · omega
    · exact d t4
    · exact d t5
    · omega
    · obtain ⟨e1, e2, e3, e4, e5, e6, e7⟩ := hall i hi
      rcases d with ⟨c, f⟩ | d | d | d | d | d
      · have := e1 c; omega
      · exact d e3
      · exact d e4
      · rw [d] at e5; exact absurd e5 (by decide)
      · omega
      · omega
  cases b
  · rfl
  · exact absurd (hacc.mp rfl) hno

theorem disassemble_accepts_iff_witness :
    isBytes secondEntryBad ∧ 32 ≤ secondEntryBad.length ∧ 32 ≤ totalLength secondEntryBad ∧
    totalLength secondEntryBad ≤ secondEntryBad.length ∧
    ∃ b out', disassemble secondEntryBad 72 staleOutput = some (b, out') ∧
      (b = true ↔ acceptCond secondEntryBad 72) ∧ (listedDefect secondEntryBad 72 → b = false) :=
  ⟨by decide, by decide, by decide, by decide,
    disassemble_accepts_iff secondEntryBad 72 staleOutput (by decide) (by decide) (by decide)
      (by decide)⟩

/-- C8 (counterexample).  On `secondEntryBad`, whose second entry fails the mask check,
`disassemble` returns false after it has overwritten `numEntries` (7 before, 2 after), `command`
(9 before, 2 after) and `entries[0]` (zero before, the decoded first entry after). -/
theorem decode_leaves_earlier_entries :
    (disassemble secondEntryBad 72 staleOutput).map
        (fun r => (r.1, r.2.numEntries, r.2.command, r.2.entries 0)) =
      some (false, 2, 2, ⟨0x04030201, 0x00ffffff, 0x08070605, 0x01000000⟩) ∧
    (staleOutput.numEntries, staleOutput.command, staleOutput.entries 0) = (7, 9, ⟨0, 0, 0, 0⟩) := by
  decide

/-- C8 (amended).  Whenever `disassemble` returns false: if one of the header checks (total
length, command, version, zero field) fails, `*output` is exactly as before the call; otherwise
the failing check is in an entry `k` below the derived count, every entry before `k` passed, and
`entries[j]` for every `j >= k` is exactly as before the call, while `numEntries` holds the
derived count, `entries[j]` for `j < k` holds the decoded entry `j`, and `command` holds the wire
command when `k > 0`. -/
theorem decode_failure_output (p : List Nat) (len : Nat) (out out' : RipPacket) (hp : isBytes p)
    (h : disassemble p len out = some (false, out')) :
    (¬ headerOk p len → out' = out) ∧
    (headerOk p len →
      ∃ k, k < entryCount (totalLength p) ∧ ¬ entryOk p k ∧ (∀ j, j < k → entryOk p j) ∧
        (∀ j, k ≤ j → out'.entries j = out.entries j) ∧
        out'.numEntries = entryCount (totalLength p) ∧
        (∀ j, j < k → out'.entries j = decodedEntry p j) ∧
        out'.command = if 0 < k then p.getD 28 0 else out.command) := by
  obtain ⟨h1, h2⟩ := disassemble_some h
  refine ⟨fun hh => (h1 hh).2, fun hh => ?_⟩
  obtain ⟨k, -, hk2, hk3, hk4, hk5, hk6, hk7, hk8⟩ := entriesLoop_some hp _ _ _ _ _ (h2 hh)
  have hne : k ≠ 0 + entryCount (totalLength p) := fun e => by simpa using hk4.mpr e
  refine ⟨k, by omega, hk5 rfl, fun j hj => hk3 j (Nat.zero_le _) hj, fun j hj => ?_, hk6,
    fun j hj => ?_, hk8⟩
  · rw [hk7 j, if_neg (by omega)]
  · rw [hk7 j, if_pos ⟨Nat.zero_le _, hj⟩]

theorem decode_failure_output_witness :
    isBytes secondEntryBad ∧
    disassemble secondEntryBad 72 staleOutput =
      some (false, storeEntry secondEntryBad 0 { staleOutput with numEntries := 2 }) ∧
    ((¬ headerOk secondEntryBad 72 →
        storeEntry secondEntryBad 0 { staleOutput with numEntries := 2 } = staleOutput) ∧
    (headerOk secondEntryBad 72 →
      ∃ k, k < entryCount (totalLength secondEntryBad) ∧ ¬ entryOk secondEntryBad k ∧
        (∀ j, j < k → entryOk secondEntryBad j) ∧
        (∀ j, k ≤ j →
          (storeEntry secondEntryBad 0 { staleOutput with numEntries := 2 }).entries j =
            staleOutput.entries j) ∧
        (storeEntry secondEntryBad 0 { staleOutput with numEntries := 2 }).numEntries =
          entryCount (totalLength secondEntryBad) ∧
        (∀ j, j < k →
          (storeEntry secondEntryBad 0 { staleOutput with numEntries := 2 }).entries j =
            decodedEntry secondEntryBad j) ∧
        (storeEntry secondEntryBad 0 { staleOutput with numEntries := 2 }).command =
          if 0 < k then secondEntryBad.getD 28 0 else staleOutput.command)) :=
  ⟨by decide, rfl,
    decode_failure_output secondEntryBad 72 staleOutput _ (by decide) rfl⟩

/-- C9 (the code at the failing input).  On `response26`, a well-formed packet of total length
552 with 26 valid entries, `disassemble` returns true with `numEntries = 26` and has stored the
26th entry into `entries[25]`, one cell behind the `RIP_MAX_ENTRY = 25` cells of the array. -/
theorem disassemble_accepts_26_entries :
    (disassemble response26 552 staleOutput).map
        (fun r => (r.1, r.2.numEntries, r.2.entries 25)) =
      some (true, 26, ⟨0x04030201, 0x00ffffff, 0x08070605, 0x01000000⟩) ∧
    totalLength response26 = 552 ∧ response26.length = 552 ∧ RIP_MAX_ENTRY = 25 ∧
    staleOutput.entries 25 = ⟨0, 0, 0, 0⟩ := by
  set_option maxRecDepth 100000 in decide

/-- C10 (entry-count derivation).  Whenever `disassemble` returns true: if the total length is
`32 + 20 * n` with `n <= 25` then `numEntries = n`, and if the total length `T` is at least 32 then
`numEntries = (T - 32) / 20`. -/
theorem numEntries_derivation (p : List Nat) (len : Nat) (out out' : RipPacket)
    (hp : isBytes p) (h : disassemble p len out = some (true, out')) :
    (∀ n, n ≤ 25 → totalLength p = 32 + 20 * n → out'.numEntries = n) ∧
    (32 ≤ totalLength p → out'.numEntries = (totalLength p - 32) / 20) := by
  obtain ⟨h1, h2⟩ := disassemble_some h
  have hh : headerOk p len := by
    by_contra hh
    exact absurd (h1 hh).1 (by simp)
  obtain ⟨k, -, -, -, -, -, hk6, -⟩ := entriesLoop_some hp _ _ _ _ _ (h2 hh)
  have hgen : 32 ≤ totalLength p → out'.numEntries = (totalLength p - 32) / 20 := by
    intro hT
    rw [hk6]
    exact entryCount_eq hT (totalLength_lt hp)
  refine ⟨fun n _ hn => ?_, hgen⟩
  rw [hgen (by omega), hn]
  omega

theorem numEntries_derivation_witness :
    isBytes oneEntryResponse ∧
    disassemble oneEntryResponse 52 staleOutput =
      some (true, storeEntry oneEntryResponse 0 { staleOutput with numEntries := 1 }) ∧
    ((∀ n, n ≤ 25 → totalLength oneEntryResponse = 32 + 20 * n →
        (storeEntry oneEntryResponse 0 { staleOutput with numEntries := 1 }).numEntries = n) ∧
    (32 ≤ totalLength oneEntryResponse →
      (storeEntry oneEntryResponse 0 { staleOutput with numEntries := 1 }).numEntries =
        (totalLength oneEntryResponse - 32) / 20)) :=
  ⟨by decide, rfl, numEntries_derivation oneEntryResponse 52 staleOutput _ (by decide) rfl⟩

/-! ## The encoder -/

theorem htonl_eq (x : Nat) :
    htonl x = x % 256 * 16777216 + x / 256 % 256 * 65536 + x / 65536 % 256 * 256 +
      x / 16777216 % 256 := by
  simp only [htonl, Nat.shiftLeft_eq, Nat.shiftRight_eq_div_pow, Nat.reducePow]

theorem word_bytes {a b c d : Nat} (ha : a < 256) (hb : b < 256) (hc : c < 256) (hd : d < 256) :
    (a * 16777216 + b * 65536 + c * 256 + d) % 256 = d ∧
    (a * 16777216 + b * 65536 + c * 256 + d) / 256 % 256 = c ∧
    (a * 16777216 + b * 65536 + c * 256 + d) / 65536 % 256 = b ∧
    (a * 16777216 + b * 65536 + c * 256 + d) / 16777216 % 256 = a := by
  refine ⟨by omega, by omega, by omega, by omega⟩

theorem htonl_htonl {x : Nat} (h : x < 4294967296) : htonl (htonl x) = x := by
  rw [htonl_eq (htonl x), htonl_eq x]
  obtain ⟨h1, h2, h3, h4⟩ := word_bytes (Nat.mod_lt x (by decide : 0 < 256))
    (Nat.mod_lt (x / 256) (by decide : 0 < 256)) (Nat.mod_lt (x / 65536) (by decide : 0 < 256))
    (Nat.mod_lt (x / 16777216) (by decide : 0 < 256))
  rw [h1, h2, h3, h4]
  clear h1 h2 h3 h4
  omega

theorem holdsAt_refl (b : List Nat) (lo : Nat) : holdsAt b b lo [] := by
  refine ⟨rfl, fun j => ?_⟩
  rw [if_neg (by simp)]

theorem holdsAt_append {b0 b1 b2 : List Nat} {lo mid : Nat} {xs ys : List Nat}
    (h1 : holdsAt b1 b0 lo xs) (h2 : holdsAt b2 b1 mid ys) (hmid : mid = lo + xs.length) :
    holdsAt b2 b0 lo (xs ++ ys) := by
  subst hmid
  refine ⟨h2.1.trans h1.1, fun j => ?_⟩
  rw [h2.2 j, h1.2 j, List.length_append]
  by_cases c2 : lo + xs.length ≤ j ∧ j < lo + xs.length + ys.length
  · rw [if_pos c2, if_pos (by omega), List.getD_append_right _ _ _ _ (by omega)]
    congr 1
    omega
  · rw [if_neg c2]
    by_cases c1 : lo ≤ j ∧ j < lo + xs.length
    · rw [if_pos c1, if_pos (by omega), List.getD_append _ _ _ _ (by omega)]
    · rw [if_neg c1, if_neg (by omega)]

/-- Two blocks stored in descending address order. -/
theorem holdsAt_prepend {b0 b1 b2 : List Nat} {lo mid : Nat} {xs ys : List Nat}
    (h1 : holdsAt b1 b0 mid ys) (h2 : holdsAt b2 b1 lo xs) (hmid : mid = lo + xs.length) :
    holdsAt b2 b0 lo (xs ++ ys) := by
  subst hmid
  refine ⟨h2.1.trans h1.1, fun j => ?_⟩
  rw [h2.2 j, h1.2 j, List.length_append]
  by_cases c1 : lo ≤ j ∧ j < lo + xs.length
  · rw [if_pos c1, if_pos (by omega), List.getD_append _ _ _ _ (by omega)]
  · rw [if_neg c1]
    by_cases c2 : lo + xs.length ≤ j ∧ j < lo + xs.length + ys.length
    · rw [if_pos c2, if_pos (by omega), List.getD_append_right _ _ _ _ (by omega)]
      congr 1
      omega
    · rw [if_neg c2, if_neg (by omega)]

theorem holdsAt_wr {b : List Nat} {i : Nat} (v : Nat) (hi : i < b.length) :
    ∃ b', wr b i v = some b' ∧ holdsAt b' b i [v % 256] := by
  refine ⟨_, wr_eq v hi, List.length_set _ _ _, fun j => ?_⟩
  rw [getD_set]
  by_cases h : j = i
  · subst h
    rw [if_pos ⟨rfl, hi⟩, if_pos (by simp)]
    simp
  · rw [if_neg (fun hh => h hh.1.symm), if_neg (by simp; omega)]

theorem bind_some_eq {α β : Type} {x : Option α} {a : α} (hx : x = some a) (f : α → Option β) :
    x.bind f = f a := by
  subst hx; rfl

theorem and_255 (x : Nat) : x &&& 0xff = x % 256 :=
  Nat.and_pow_two_sub_one_eq_mod x 8

theorem holdsAt_wr32 {b : List Nat} {i j k l : Nat} (x : Nat) (hl : l < b.length)
    (hj : j = i + 1) (hk : k = i + 2) (hl3 : l = i + 3) :
    ∃ b', wr32 b i j k l x = some b' ∧
      holdsAt b' b i [x % 256, x / 256 % 256, x / 65536 % 256, x / 16777216 % 256] := by
  subst hj hk hl3
  obtain ⟨b1, e1, g1⟩ := holdsAt_wr (x &&& 0xff) (show i < b.length by omega)
  obtain ⟨b2, e2, g2⟩ := holdsAt_wr (x >>> 8 &&& 0xff) (show i + 1 < b1.length by
    rw [g1.1]; omega)
  obtain ⟨b3, e3, g3⟩ := holdsAt_wr (x >>> 16 &&& 0xff) (show i + 2 < b2.length by
    rw [g2.1, g1.1]; omega)
  obtain ⟨b4, e4, g4⟩ := holdsAt_wr (x >>> 24) (show i + 3 < b3.length by
    rw [g3.1, g2.1, g1.1]; omega)
  refine ⟨b4, ?_, ?_⟩
  · unfold wr32
    refine (bind_some_eq e1 _).trans ?_
    refine (bind_some_eq e2 _).trans ?_
    refine (bind_some_eq e3 _).trans ?_
    exact e4
  · have h12 := holdsAt_append g1 g2 rfl
    have h123 := holdsAt_append h12 g3 rfl
    have h := holdsAt_append h123 g4 rfl
    simp only [and_255, Nat.shiftRight_eq_div_pow, Nat.reducePow, Nat.mod_mod, List.cons_append,
      List.nil_append] at h
    exact h


theorem assembleEntry_holdsAt (rip : RipPacket) (i : Nat) {buffer : List Nat}
    (h : 24 + 20 * i ≤ buffer.length) :
    ∃ b, assembleEntry rip i buffer = some b ∧ holdsAt b buffer (4 + 20 * i) (entryBytes rip i) := by
  obtain ⟨b1, e1, g1⟩ := holdsAt_wr 0 (show 4 + 20 * i < buffer.length by omega)
  obtain ⟨b2, e2, g2⟩ := holdsAt_wr (if rip.command = 1 then 0 else 2)
    (show 5 + 20 * i < b1.length by rw [g1.1]; omega)
  have l2 : b2.length = buffer.length := g2.1.trans g1.1
  obtain ⟨b3, e3, g3⟩ := holdsAt_wr 0 (show 7 + 20 * i < b2.length by omega)
  have l3 : b3.length = buffer.length := g3.1.trans l2
  obtain ⟨b4, e4, g4⟩ := holdsAt_wr 0 (show 6 + 20 * i < b3.length by omega)
  have l4 : b4.length = buffer.length := g4.1.trans l3
  obtain ⟨b5, e5, g5⟩ := holdsAt_wr32 (i := 8 + 20 * i) (j := 9 + 20 * i) (k := 10 + 20 * i)
    (l := 11 + 20 * i) (rip.entries i).addr (show 11 + 20 * i < b4.length by omega)
    (by omega) (by omega) (by omega)
  have l5 : b5.length = buffer.length := g5.1.trans l4
  obtain ⟨b6, e6, g6⟩ := holdsAt_wr32 (i := 12 + 20 * i) (j := 13 + 20 * i) (k := 14 + 20 * i)
    (l := 15 + 20 * i) (rip.entries i).mask (show 15 + 20 * i < b5.length by omega)
    (by omega) (by omega) (by omega)
  have l6 : b6.length = buffer.length := g6.1.trans l5
  obtain ⟨b7, e7, g7⟩ := holdsAt_wr32 (i := 16 + 20 * i) (j := 17 + 20 * i) (k := 18 + 20 * i)
    (l := 19 + 20 * i) (rip.entries i).nexthop (show 19 + 20 * i < b6.length by omega)
    (by omega) (by omega) (by omega)
  have l7 : b7.length = buffer.length := g7.1.trans l6
  obtain ⟨b8, e8, g8⟩ := holdsAt_wr32 (i := 20 + 20 * i) (j := 21 + 20 * i) (k := 22 + 20 * i)
    (l := 23 + 20 * i) (rip.entries i).metric (show 23 + 20 * i < b7.length by omega)
    (by omega) (by omega) (by omega)
  refine ⟨b8, ?_, ?_⟩
  · unfold assembleEntry
    refine (bind_some_eq e1 _).trans ?_
    refine (bind_some_eq e2 _).trans ?_
    refine (bind_some_eq e3 _).trans ?_
    refine (bind_some_eq e4 _).trans ?_
    refine (bind_some_eq e5 _).trans ?_
    refine (bind_some_eq e6 _).trans ?_
    refine (bind_some_eq e7 _).trans ?_
    exact e8
  · have hv : (if rip.command = 1 then 0 else 2) % 256 = if rip.command = 1 then 0 else 2 := by
      split_ifs <;> rfl
    rw [hv] at g2
    have h12 := holdsAt_append g1 g2 (by simp; omega)
    have h34 := holdsAt_prepend g3 g4 (by simp; omega)
    have h4 := holdsAt_append h12 h34 (by simp; omega)
    have h5 := holdsAt_append h4 g5 (by simp; omega)
    have h6 := holdsAt_append h5 g6 (by simp; omega)
    have h7 := holdsAt_append h6 g7 (by simp; omega)
    have h8 := holdsAt_append h7 g8 (by simp; omega)
    exact h8

theorem entryBytes_length (rip : RipPacket) (i : Nat) : (entryBytes rip i).length = 20 := rfl

theorem flatMap_range_succ (f : Nat → List Nat) (r : Nat) :
    (List.range (r + 1)).flatMap f = f 0 ++ (List.range r).flatMap (fun k => f (k + 1)) := by
  rw [List.range_succ_eq_map, List.flatMap_cons, List.flatMap_map]

theorem flatMap_length20 (f : Nat → List Nat) (hf : ∀ k, (f k).length = 20) (r : Nat) :
    ((List.range r).flatMap f).length = 20 * r := by
  induction r generalizing f with
  | zero => rfl
  | succ r ih =>
    rw [flatMap_range_succ, List.length_append, hf 0, ih (fun k => f (k + 1)) (fun k => hf _)]
    omega

theorem assembleLoop_holdsAt (rip : RipPacket) :
    ∀ (r i : Nat) (buffer : List Nat), 4 + 20 * (i + r) ≤ buffer.length →
      ∃ b, assembleLoop rip r i buffer = some b ∧
        holdsAt b buffer (4 + 20 * i) ((List.range r).flatMap fun k => entryBytes rip (i + k)) := by
  intro r
  induction r with
  | zero => intro i buffer _; exact ⟨buffer, rfl, holdsAt_refl _ _⟩
  | succ r ih =>
    intro i buffer h
    obtain ⟨b1, e1, g1⟩ := assembleEntry_holdsAt rip i (show 24 + 20 * i ≤ buffer.length by omega)
    obtain ⟨b2, e2, g2⟩ := ih (i + 1) b1 (by rw [g1.1]; omega)
    refine ⟨b2, ?_, ?_⟩
    · rw [assembleLoop]
      exact (bind_some_eq e1 _).trans e2
    · rw [flatMap_range_succ]
      have e : (fun k => entryBytes rip (i + (k + 1))) = fun k => entryBytes rip (i + 1 + k) := by
        funext k; congr 1; omega
      rw [e]
      exact holdsAt_append g1 g2 (by rw [entryBytes_length]; omega)

theorem flatMap_getD20 (f : Nat → List Nat) (hf : ∀ k, (f k).length = 20) :
    ∀ (r i d : Nat), i < r → d < 20 →
      ((List.range r).flatMap f).getD (20 * i + d) 0 = (f i).getD d 0 := by
  intro r
  induction r generalizing f with
  | zero => intro i d hi; omega
  | succ r ih =>
    intro i d hi hd
    rw [flatMap_range_succ]
    cases i with
    | zero =>
      rw [List.getD_append _ _ _ _ (by rw [hf]; omega), Nat.mul_zero, Nat.zero_add]
    | succ i =>
      rw [List.getD_append_right _ _ _ _ (by rw [hf]; omega), hf,
        show 20 * (i + 1) + d - 20 = 20 * i + d by omega]
      exact ih (fun k => f (k + 1)) (fun k => hf _) i d (by omega) hd

theorem encodedBytes_length (rip : RipPacket) :
    (encodedBytes rip).length = 4 + 20 * rip.numEntries := by
  unfold encodedBytes
  rw [List.length_append, flatMap_length20 _ (entryBytes_length rip)]
  rfl

theorem encodedBytes_entry (rip : RipPacket) {i d : Nat} (hi : i < rip.numEntries) (hd : d < 20) :
    (encodedBytes rip).getD (4 + 20 * i + d) 0 = (entryBytes rip i).getD d 0 := by
  unfold encodedBytes
  rw [List.getD_append_right _ _ _ _ (by simp; omega)]
  rw [show 4 + 20 * i + d - [rip.command % 256, 2, 0, 0].length = 20 * i + d by simp; omega]
  exact flatMap_getD20 _ (entryBytes_length rip) _ i d hi hd

theorem assemble_holdsAt (rip : RipPacket) {buffer : List Nat}
    (h : 4 + 20 * rip.numEntries ≤ buffer.length) :
    ∃ b, assemble rip buffer = some ((4 + 20 * rip.numEntries) % 2 ^ 32, b) ∧
      holdsAt b buffer 0 (encodedBytes rip) := by
  obtain ⟨b1, e1, g1⟩ := holdsAt_wr rip.command (show 0 < buffer.length by omega)
  obtain ⟨b2, e2, g2⟩ := holdsAt_wr 2 (show 1 < b1.length by rw [g1.1]; omega)
  have l2 : b2.length = buffer.length := g2.1.trans g1.1
  obtain ⟨b3, e3, g3⟩ := holdsAt_wr 0 (show 3 < b2.length by omega)
  have l3 : b3.length = buffer.length := g3.1.trans l2
  obtain ⟨b4, e4, g4⟩ := holdsAt_wr 0 (show 2 < b3.length by omega)
  have l4 : b4.length = buffer.length := g4.1.trans l3
  obtain ⟨b5, e5, g5⟩ := assembleLoop_holdsAt rip rip.numEntries 0 b4 (by omega)
  refine ⟨b5, ?_, ?_⟩
  · unfold assemble
    refine (bind_some_eq e1 _).trans ?_
    refine (bind_some_eq e2 _).trans ?_
    refine (bind_some_eq e3 _).trans ?_
    refine (bind_some_eq e4 _).trans ?_
    exact (bind_some_eq e5 _).trans rfl
  · have h12 := holdsAt_append g1 g2 (by simp)
    have h34 := holdsAt_prepend g3 g4 (by simp)
    have h4 := holdsAt_append h12 h34 (by simp)
    have e : (fun k => entryBytes rip (0 + k)) = entryBytes rip := by
      funext k; rw [Nat.zero_add]
    rw [e] at g5
    exact holdsAt_append h4 g5 (by simp)

theorem le32_bytes {x : Nat} (h : x < 4294967296) :
    x % 256 + x / 256 % 256 * 256 + x / 65536 % 256 * 65536 + x / 16777216 % 256 * 16777216 = x := by
  omega

/-- The packet carries, from offset 28 on, the bytes that `assemble` produced. -/
theorem placed_entryOk {rip : RipPacket} {p : List Nat}
    (hcmd : rip.command = 1 ∨ rip.command = 2)
    (hplace : ∀ j, j < 4 + 20 * rip.numEntries → p.getD (28 + j) 0 = (encodedBytes rip).getD j 0)
    {i : Nat} (hi : i < rip.numEntries)
    (hf : (rip.entries i).addr < 4294967296 ∧ (rip.entries i).mask < 4294967296 ∧
      (rip.entries i).nexthop < 4294967296 ∧ (rip.entries i).metric < 4294967296)
    (hmask : maskOk (htonl (rip.entries i).mask))
    (hmetric : 1 ≤ htonl (rip.entries i).metric ∧ htonl (rip.entries i).metric ≤ 16) :
    p.getD 28 0 = rip.command ∧ entryOk p i ∧ decodedEntry p i = rip.entries i := by
  have h28 : p.getD 28 0 = rip.command := by
    have := hplace 0 (by omega)
    rw [this]
    show rip.command % 256 = rip.command
    omega
  have hentry : ∀ d, d < 20 → ∀ idx, idx = 32 + 20 * i + d →
      p.getD idx 0 = (entryBytes rip i).getD d 0 := by
    intro d hd idx hidx
    rw [hidx, show 32 + 20 * i + d = 28 + (4 + 20 * i + d) by omega,
      hplace _ (by omega), encodedBytes_entry rip hi hd]
  have f0 : p.getD (32 + 20 * i) 0 = 0 := hentry 0 (by omega) _ (by omega)
  have f1 : p.getD (32 + 20 * i + 1) 0 = if rip.command = 1 then 0 else 2 :=
    hentry 1 (by omega) _ (by omega)
  have t0 : p.getD (34 + 20 * i) 0 = 0 := hentry 2 (by omega) _ (by omega)
  have t1 : p.getD (35 + 20 * i) 0 = 0 := hentry 3 (by omega) _ (by omega)
  have a0 : p.getD (36 + 20 * i) 0 = (rip.entries i).addr % 256 :=
    hentry 4 (by omega) _ (by omega)
  have a1 : p.getD (36 + 20 * i + 1) 0 = (rip.entries i).addr / 256 % 256 :=
    hentry 5 (by omega) _ (by omega)
  have a2 : p.getD (36 + 20 * i + 2) 0 = (rip.entries i).addr / 65536 % 256 :=
    hentry 6 (by omega) _ (by omega)
  have a3 : p.getD (36 + 20 * i + 3) 0 = (rip.entries i).addr / 16777216 % 256 :=
    hentry 7 (by omega) _ (by omega)
  have m0 : p.getD (40 + 20 * i) 0 = (rip.entries i).mask % 256 :=
    hentry 8 (by omega) _ (by omega)
  have m1 : p.getD (40 + 20 * i + 1) 0 = (rip.entries i).mask / 256 % 256 :=
    hentry 9 (by omega) _ (by omega)
  have m2 : p.getD (40 + 20 * i + 2) 0 = (rip.entries i).mask / 65536 % 256 :=
    hentry 10 (by omega) _ (by omega)
  have m3 : p.getD (40 + 20 * i + 3) 0 = (rip.entries i).mask / 16777216 % 256 :=
    hentry 11 (by omega) _ (by omega)
  have n0 : p.getD (44 + 20 * i) 0 = (rip.entries i).nexthop % 256 :=
    hentry 12 (by omega) _ (by omega)
  have n1 : p.getD (44 + 20 * i + 1) 0 = (rip.entries i).nexthop / 256 % 256 :=
    hentry 13 (by omega) _ (by omega)
  have n2 : p.getD (44 + 20 * i + 2) 0 = (rip.entries i).nexthop / 65536 % 256 :=
    hentry 14 (by omega) _ (by omega)
  have n3 : p.getD (44 + 20 * i + 3) 0 = (rip.entries i).nexthop / 16777216 % 256 :=
    hentry 15 (by omega) _ (by omega)
  have c0 : p.getD (48 + 20 * i) 0 = (rip.entries i).metric % 256 :=
    hentry 16 (by omega) _ (by omega)
  have c1 : p.getD (48 + 20 * i + 1) 0 = (rip.entries i).metric / 256 % 256 :=
    hentry 17 (by omega) _ (by omega)
  have c2 : p.getD (48 + 20 * i + 2) 0 = (rip.entries i).metric / 65536 % 256 :=
    hentry 18 (by omega) _ (by omega)
  have c3 : p.getD (48 + 20 * i + 3) 0 = (rip.entries i).metric / 16777216 % 256 :=
    hentry 19 (by omega) _ (by omega)
  have hfam : be16 p (32 + 20 * i) = if rip.command = 1 then 0 else 2 := by
    simp only [be16, f0, f1]; omega
  have hm : be32 p (40 + 20 * i) = htonl (rip.entries i).mask := by
    simp only [be32, m0, m1, m2, m3, htonl_eq]
  have hc : be32 p (48 + 20 * i) = htonl (rip.entries i).metric := by
    simp only [be32, c0, c1, c2, c3, htonl_eq]
  have ha : le32 p (36 + 20 * i) = (rip.entries i).addr := by
    simp only [le32, a0, a1, a2, a3]; exact le32_bytes hf.1
  have hn : le32 p (44 + 20 * i) = (rip.entries i).nexthop := by
    simp only [le32, n0, n1, n2, n3]; exact le32_bytes hf.2.2.1
  refine ⟨h28, ?_, ?_⟩
  · refine ⟨fun e => ?_, fun e => ?_, t0, t1, hm ▸ hmask, hc ▸ hmetric.1, hc ▸ hmetric.2⟩
    · rw [hfam, if_pos (h28 ▸ e)]
    · rw [hfam, if_neg (by rw [← h28, e]; decide)]
  · simp only [decodedEntry, ha, hn, hm, hc, htonl_htonl hf.2.1, htonl_htonl hf.2.2.2]

/-! ## Encode/decode round trip -/

/-- The encode/decode round trip for a message with at least one entry: for a message with
command 1 or 2, `1 <= n <= 25` entries of 32-bit fields whose byte-swapped mask passes the mask
test and whose byte-swapped metric is in `[1,16]`, `assemble` returns `4 + 20 * n`, and on every
packet of total length `32 + 20 * n` carrying the written bytes at offset 28, `disassemble` with
`len = 28 + (4 + 20 * n)` returns true with the `numEntries`, `command` and `entries[0..n-1]` of
the message. -/
theorem round_trip_nonempty (rip out : RipPacket) (buffer p : List Nat)
    (hcmd : rip.command = 1 ∨ rip.command = 2)
    (hn1 : 1 ≤ rip.numEntries) (hn : rip.numEntries ≤ 25)
    (hfield : ∀ i, i < rip.numEntries →
      (rip.entries i).addr < 4294967296 ∧ (rip.entries i).mask < 4294967296 ∧
      (rip.entries i).nexthop < 4294967296 ∧ (rip.entries i).metric < 4294967296)
    (hmask : ∀ i, i < rip.numEntries → maskOk (htonl (rip.entries i).mask))
    (hmetric : ∀ i, i < rip.numEntries →
      1 ≤ htonl (rip.entries i).metric ∧ htonl (rip.entries i).metric ≤ 16)
    (hbuf : 4 + 20 * rip.numEntries ≤ buffer.length)
    (hp : isBytes p) (hT : totalLength p = 32 + 20 * rip.numEntries)
    (hplen : 32 + 20 * rip.numEntries ≤ p.length) :
    ∃ ret b, assemble rip buffer = some (ret, b) ∧ ret = 4 + 20 * rip.numEntries ∧
      ((∀ j, j < ret → p.getD (28 + j) 0 = b.getD j 0) →
        ∃ out', disassemble p (28 + ret) out = some (true, out') ∧
          out'.numEntries = rip.numEntries ∧ out'.command = rip.command ∧
          ∀ i, i < rip.numEntries → out'.entries i = rip.entries i) := by
  obtain ⟨b, ha, hh⟩ := assemble_holdsAt rip hbuf
  have hret : (4 + 20 * rip.numEntries) % 2 ^ 32 = 4 + 20 * rip.numEntries := by
    simp only [Nat.reducePow]; omega
  rw [hret] at ha
  refine ⟨_, b, ha, rfl, fun hplace => ?_⟩
  have hplace2 : ∀ j, j < 4 + 20 * rip.numEntries →
      p.getD (28 + j) 0 = (encodedBytes rip).getD j 0 := by
    intro j hj
    rw [hplace j hj, hh.2 j, if_pos (by rw [encodedBytes_length]; omega), Nat.sub_zero]
  have hall : ∀ i, i < rip.numEntries →
      p.getD 28 0 = rip.command ∧ entryOk p i ∧ decodedEntry p i = rip.entries i :=
    fun i hi => placed_entryOk hcmd hplace2 hi (hfield i hi) (hmask i hi) (hmetric i hi)
  have h28 := (hall 0 (by omega)).1
  have h29 : p.getD 29 0 = 2 := by
    have := hplace2 1 (by omega)
    rw [this]; rfl
  have h30 : p.getD 30 0 = 0 := by
    have := hplace2 2 (by omega)
    rw [this]; rfl
  have h31 : p.getD 31 0 = 0 := by
    have := hplace2 3 (by omega)
    rw [this]; rfl
  have hhdr : headerOk p (28 + (4 + 20 * rip.numEntries)) :=
    ⟨by omega, h28 ▸ hcmd, h29, h30, h31⟩
  have hcount : entryCount (totalLength p) = rip.numEntries := by
    rw [entryCount_eq (by omega) (totalLength_lt hp), hT]; omega
  obtain ⟨⟨b', out'⟩, hd⟩ := disassemble_exists hp (by omega) (by omega) (by omega)
    (28 + (4 + 20 * rip.numEntries)) out
  have hb : b' = true := by
    rw [disassemble_true_iff hp hd, hcount]
    exact ⟨hhdr, fun i hi => (hall i hi).2.1⟩
  subst hb
  obtain ⟨k, -, -, -, hk4, -, hk6, hk7, hk8⟩ :=
    entriesLoop_some hp _ _ _ _ _ ((disassemble_some hd).2 hhdr)
  have hk : k = rip.numEntries := by
    rw [hk4.mp rfl, hcount]; omega
  subst hk
  refine ⟨out', hd, by rw [hk6]; exact hcount, ?_, fun i hi => ?_⟩
  · rw [hk8, if_pos (by omega), h28]
  · rw [hk7 i, if_pos ⟨Nat.zero_le _, hi⟩]
    exact (hall i hi).2.2

theorem round_trip_nonempty_example :
    ∃ ret b, assemble oneEntryMessage (List.replicate 24 0) = some (ret, b) ∧
      ret = 4 + 20 * oneEntryMessage.numEntries ∧
      ((∀ j, j < ret → oneEntryResponse.getD (28 + j) 0 = b.getD j 0) →
        ∃ out', disassemble oneEntryResponse (28 + ret) staleOutput = some (true, out') ∧
          out'.numEntries = oneEntryMessage.numEntries ∧
          out'.command = oneEntryMessage.command ∧
          ∀ i, i < oneEntryMessage.numEntries → out'.entries i = oneEntryMessage.entries i) :=
  round_trip_nonempty oneEntryMessage staleOutput (List.replicate 24 0) oneEntryResponse
    (by decide) (by decide) (by decide) (by decide) (by decide) (by decide) (by decide)
    (by decide) (by decide) (by decide)

/-- C1 (the code at the failing input).  For the message with command 2 and no entry,
`assemble` writes `02 02 00 00` and returns 4; on the packet carrying these bytes at offset 28
with total length 32, `disassemble` with `len = 28 + 4` returns true with `numEntries = 0` and
leaves `command` at the value 9 that `*output` held before the call, not at 2. -/
theorem round_trip_loses_command :
    assemble emptyMessage [0, 0, 0, 0] = some (4, [2, 2, 0, 0]) ∧
    emptyResponse = ripFrame (32 + 20 * 0) [2, 2, 0, 0] ∧
    (disassemble emptyResponse (28 + 4) staleOutput).map
        (fun r => (r.1, r.2.numEntries, r.2.command)) = some (true, 0, 9) ∧
    emptyMessage.command = 2 ∧ staleOutput.command = 9 := by
  decide

/-! ## Encoder output and decoded representation -/

/-- C11 (encoder output).  For every message with `n <= 25` entries and a `uint8_t` command,
whatever the field values, on every buffer of at least `4 + 20 * n` bytes (a buffer of exactly
that size included, so no store goes to an index from `4 + 20 * n` on) `assemble` returns
`4 + 20 * n`; the buffer then starts with `command, 2, 0, 0`, followed for each entry `i < n` by
the 20 bytes `entryBytes rip i` (family `00` and `00` or `02`, tag `00 00`, then `addr`, `mask`,
`nexthop`, `metric` least significant byte first), and every byte at an index from `4 + 20 * n`
on is as before the call. -/
theorem assemble_output (rip : RipPacket) (buffer : List Nat) (hn : rip.numEntries ≤ 25)
    (hcmd : rip.command < 256) (hbuf : 4 + 20 * rip.numEntries ≤ buffer.length) :
    ∃ b, assemble rip buffer = some (4 + 20 * rip.numEntries, b) ∧
      b.length = buffer.length ∧
      b.getD 0 0 = rip.command ∧ b.getD 1 0 = 2 ∧ b.getD 2 0 = 0 ∧ b.getD 3 0 = 0 ∧
      (∀ i d, i < rip.numEntries → d < 20 →
        b.getD (4 + 20 * i + d) 0 = (entryBytes rip i).getD d 0) ∧
      (∀ j, 4 + 20 * rip.numEntries ≤ j → b.getD j 0 = buffer.getD j 0) := by
  obtain ⟨b, ha, hlen, hget⟩ := assemble_holdsAt rip hbuf
  have hret : (4 + 20 * rip.numEntries) % 2 ^ 32 = 4 + 20 * rip.numEntries := by
    simp only [Nat.reducePow]; omega
  rw [hret] at ha
  have hl := encodedBytes_length rip
  have hin : ∀ j, j < 4 + 20 * rip.numEntries → b.getD j 0 = (encodedBytes rip).getD j 0 := by
    intro j hj
    rw [hget j, if_pos (by omega), Nat.sub_zero]
  refine ⟨b, ha, hlen, ?_, ?_, ?_, ?_, fun i d hi hd => ?_, fun j hj => ?_⟩
  · rw [hin 0 (by omega)]
    exact Nat.mod_eq_of_lt hcmd
  · rw [hin 1 (by omega)]; rfl
  · rw [hin 2 (by omega)]; rfl
  · rw [hin 3 (by omega)]; rfl
  · rw [hin _ (by omega), encodedBytes_entry rip hi hd]
  · rw [hget j, if_neg (by omega)]

theorem assemble_output_witness :
    oneEntryMessage.numEntries ≤ 25 ∧ oneEntryMessage.command < 256 ∧
    4 + 20 * oneEntryMessage.numEntries ≤ (List.replicate 24 7).length ∧
    ∃ b, assemble oneEntryMessage (List.replicate 24 7) =
        some (4 + 20 * oneEntryMessage.numEntries, b) ∧
      b.length = (List.replicate 24 7).length ∧
      b.getD 0 0 = oneEntryMessage.command ∧ b.getD 1 0 = 2 ∧ b.getD 2 0 = 0 ∧
      b.getD 3 0 = 0 ∧
      (∀ i d, i < oneEntryMessage.numEntries → d < 20 →
        b.getD (4 + 20 * i + d) 0 = (entryBytes oneEntryMessage i).getD d 0) ∧
      (∀ j, 4 + 20 * oneEntryMessage.numEntries ≤ j →
        b.getD j 0 = (List.replicate 24 7).getD j 0) :=
  ⟨by decide, by decide, by decide,
    assemble_output oneEntryMessage (List.replicate 24 7) (by decide) (by decide) (by decide)⟩

theorem htonl_be32 {p : List Nat} (hp : isBytes p) (i : Nat) : htonl (be32 p i) = le32 p i := by
  obtain ⟨h1, h2, h3, h4⟩ := word_bytes (getD_lt_of_isBytes hp i) (getD_lt_of_isBytes hp (i + 1))
    (getD_lt_of_isBytes hp (i + 2)) (getD_lt_of_isBytes hp (i + 3))
  rw [htonl_eq]
  simp only [be32, le32]
  rw [h1, h2, h3, h4]
  clear h1 h2 h3 h4
  omega

/-- C12 (wire-order storage).  Whenever `disassemble` returns true, for every `i < numEntries`
each of `entries[i].addr`, `.mask`, `.nexthop`, `.metric` is the 32-bit value whose least
significant byte is the first wire byte of the field (offsets `36+20i`, `40+20i`, `44+20i`,
`48+20i`) and whose most significant byte is the fourth; wire bytes `01 02 03 04` give
`0x04030201` and wire bytes `00 00 00 05` give `0x05000000`. -/
theorem decoded_fields_wire_order (p : List Nat) (len : Nat) (out out' : RipPacket)
    (hp : isBytes p) (h : disassemble p len out = some (true, out')) :
    (∀ i, i < out'.numEntries →
      (out'.entries i).addr = le32 p (36 + 20 * i) ∧
      (out'.entries i).mask = le32 p (40 + 20 * i) ∧
      (out'.entries i).nexthop = le32 p (44 + 20 * i) ∧
      (out'.entries i).metric = le32 p (48 + 20 * i)) ∧
    le32 [1, 2, 3, 4] 0 = 0x04030201 ∧ le32 [0, 0, 0, 5] 0 = 0x05000000 := by
  refine ⟨fun i hi => ?_, by decide, by decide⟩
  obtain ⟨h1, h2⟩ := disassemble_some h
  have hh : headerOk p len := by
    by_contra hh
    exact absurd (h1 hh).1 (by simp)
  obtain ⟨k, -, -, -, hk4, -, hk6, hk7, -⟩ := entriesLoop_some hp _ _ _ _ _ (h2 hh)
  have hk : k = 0 + entryCount (totalLength p) := hk4.mp rfl
  have hk6' : out'.numEntries = entryCount (totalLength p) := hk6
  have hi2 : i < entryCount (totalLength p) := hk6' ▸ hi
  rw [hk7 i, if_pos ⟨Nat.zero_le _, by omega⟩]
  simp only [decodedEntry, htonl_be32 hp, and_self]

theorem decoded_fields_wire_order_witness :
    isBytes metricFiveResponse ∧
    disassemble metricFiveResponse 52 staleOutput =
      some (true, storeEntry metricFiveResponse 0 { staleOutput with numEntries := 1 }) ∧
    ((∀ i, i < (storeEntry metricFiveResponse 0 { staleOutput with numEntries := 1 }).numEntries →
      ((storeEntry metricFiveResponse 0 { staleOutput with numEntries := 1 }).entries i).addr =
        le32 metricFiveResponse (36 + 20 * i) ∧
      ((storeEntry metricFiveResponse 0 { staleOutput with numEntries := 1 }).entries i).mask =
        le32 metricFiveResponse (40 + 20 * i) ∧
      ((storeEntry metricFiveResponse 0 { staleOutput with numEntries := 1 }).entries i).nexthop =
        le32 metricFiveResponse (44 + 20 * i) ∧
      ((storeEntry metricFiveResponse 0 { staleOutput with numEntries := 1 }).entries i).metric =
        le32 metricFiveResponse (48 + 20 * i)) ∧
    le32 [1, 2, 3, 4] 0 = 0x04030201 ∧ le32 [0, 0, 0, 5] 0 = 0x05000000) :=
  ⟨by decide, rfl,
    decoded_fields_wire_order metricFiveResponse 52 staleOutput _ (by decide) rfl⟩

/-- C13 (the code at the failing input).  On `emptyResponse`, an accepted packet with no entry
whose command byte `packet[28]` is 2, `disassemble` returns true and `command` is whatever
`*output` held before the call: 9 when it held 9, 1 when it held 1. -/
theorem decode_empty_keeps_prior_command :
    emptyResponse.getD 28 0 = 2 ∧
    (disassemble emptyResponse 32 staleOutput).map (fun r => (r.1, r.2.numEntries, r.2.command)) =
      some (true, 0, 9) ∧
    (disassemble emptyResponse 32 requestOutput).map
        (fun r => (r.1, r.2.numEntries, r.2.command)) = some (true, 0, 1) ∧
    staleOutput.command = 9 ∧ requestOutput.command = 1 := by
  decide

/-! ## Decode then encode -/

theorem le32_byte {p : List Nat} (hp : isBytes p) {i j k l : Nat} (hj : j = i + 1)
    (hk : k = i + 2) (hl : l = i + 3) :
    le32 p i % 256 = p.getD i 0 ∧ le32 p i / 256 % 256 = p.getD j 0 ∧
    le32 p i / 65536 % 256 = p.getD k 0 ∧ le32 p i / 16777216 % 256 = p.getD l 0 := by
  subst hj hk hl
  have h0 := getD_lt_of_isBytes hp i
  have h1 := getD_lt_of_isBytes hp (i + 1)
  have h2 := getD_lt_of_isBytes hp (i + 2)
  have h3 := getD_lt_of_isBytes hp (i + 3)
  simp only [le32]
  refine ⟨by omega, by omega, by omega, by omega⟩

/-- The 20 bytes that `assemble` writes for a decoded entry are the 20 wire bytes it was decoded
from. -/
theorem entryBytes_decoded {p : List Nat} (hp : isBytes p) {rip : RipPacket} {i : Nat}
    (hcmd : rip.command = p.getD 28 0) (h12 : p.getD 28 0 = 1 ∨ p.getD 28 0 = 2)
    (hok : entryOk p i) (hent : rip.entries i = decodedEntry p i) :
    entryBytes rip i =
      [p.getD (32 + 20 * i) 0, p.getD (33 + 20 * i) 0, p.getD (34 + 20 * i) 0,
       p.getD (35 + 20 * i) 0, p.getD (36 + 20 * i) 0, p.getD (37 + 20 * i) 0,
       p.getD (38 + 20 * i) 0, p.getD (39 + 20 * i) 0, p.getD (40 + 20 * i) 0,
       p.getD (41 + 20 * i) 0, p.getD (42 + 20 * i) 0, p.getD (43 + 20 * i) 0,
       p.getD (44 + 20 * i) 0, p.getD (45 + 20 * i) 0, p.getD (46 + 20 * i) 0,
       p.getD (47 + 20 * i) 0, p.getD (48 + 20 * i) 0, p.getD (49 + 20 * i) 0,
       p.getD (50 + 20 * i) 0, p.getD (51 + 20 * i) 0] := by
  obtain ⟨e1, e2, e3, e4, -, -, -⟩ := hok
  have f0 := getD_lt_of_isBytes hp (32 + 20 * i)
  have f1 := getD_lt_of_isBytes hp (33 + 20 * i)
  rw [be16_eq p (show 33 + 20 * i = 32 + 20 * i + 1 by omega)] at e1 e2
  have hfam : p.getD (32 + 20 * i) 0 = 0 ∧
      p.getD (33 + 20 * i) 0 = if rip.command = 1 then 0 else 2 := by
    rw [hcmd]
    rcases h12 with c | c
    · have := e1 c
      rw [if_pos c]; omega
    · have := e2 c
      rw [if_neg (by omega)]; omega
  obtain ⟨a0, a1, a2, a3⟩ := le32_byte hp (i := 36 + 20 * i) (j := 37 + 20 * i)
    (k := 38 + 20 * i) (l := 39 + 20 * i) (by omega) (by omega) (by omega)
  obtain ⟨m0, m1, m2, m3⟩ := le32_byte hp (i := 40 + 20 * i) (j := 41 + 20 * i)
    (k := 42 + 20 * i) (l := 43 + 20 * i) (by omega) (by omega) (by omega)
  obtain ⟨n0, n1, n2, n3⟩ := le32_byte hp (i := 44 + 20 * i) (j := 45 + 20 * i)
    (k := 46 + 20 * i) (l := 47 + 20 * i) (by omega) (by omega) (by omega)
  obtain ⟨c0, c1, c2, c3⟩ := le32_byte hp (i := 48 + 20 * i) (j := 49 + 20 * i)
    (k := 50 + 20 * i) (l := 51 + 20 * i) (by omega) (by omega) (by omega)
  simp only [entryBytes, hent, decodedEntry, htonl_be32 hp, a0, a1, a2, a3, m0, m1, m2, m3,
    n0, n1, n2, n3, c0, c1, c2, c3, hfam.1, ← hfam.2, e3, e4]

theorem getD_twenty (f : Nat → Nat) (i d : Nat) (hd : d < 20) :
    [f (32 + 20 * i), f (33 + 20 * i), f (34 + 20 * i), f (35 + 20 * i), f (36 + 20 * i),
      f (37 + 20 * i), f (38 + 20 * i), f (39 + 20 * i), f (40 + 20 * i), f (41 + 20 * i),
      f (42 + 20 * i), f (43 + 20 * i), f (44 + 20 * i), f (45 + 20 * i), f (46 + 20 * i),
      f (47 + 20 * i), f (48 + 20 * i), f (49 + 20 * i), f (50 + 20 * i),
      f (51 + 20 * i)].getD d 0 = f (32 + 20 * i + d) := by
  interval_cases d <;>
    simp only [List.getD_cons_zero, List.getD_cons_succ] <;> congr 1 <;> omega

/-- C19 (decode then encode).  Whenever `disassemble` returns true on a packet with
`n = (T - 32) / 20` entries, `1 <= n <= 25`, `assemble` applied to the decoded output returns
`4 + 20 * n` and writes, at indices `0 ..< 4 + 20 * n`, the bytes `28 ..< 32 + 20 * n` of the
packet. -/
theorem decode_then_encode (p : List Nat) (len : Nat) (out out' : RipPacket)
    (buffer : List Nat) (hp : isBytes p) (h : disassemble p len out = some (true, out'))
    (hn1 : 1 ≤ (totalLength p - 32) / 20) (hn : (totalLength p - 32) / 20 ≤ 25)
    (hbuf : 4 + 20 * ((totalLength p - 32) / 20) ≤ buffer.length) :
    ∃ b, assemble out' buffer = some (4 + 20 * ((totalLength p - 32) / 20), b) ∧
      ∀ j, j < 4 + 20 * ((totalLength p - 32) / 20) → b.getD j 0 = p.getD (28 + j) 0 := by
  obtain ⟨h1, h2⟩ := disassemble_some h
  have hh : headerOk p len := by
    by_contra hh
    exact absurd (h1 hh).1 (by simp)
  obtain ⟨k, -, -, hk3, hk4, -, hk6, hk7, hk8⟩ := entriesLoop_some hp _ _ _ _ _ (h2 hh)
  have hcount : entryCount (totalLength p) = (totalLength p - 32) / 20 :=
    entryCount_eq (by omega) (totalLength_lt hp)
  have hk : k = (totalLength p - 32) / 20 := by rw [hk4.mp rfl, hcount]; omega
  have hnum : out'.numEntries = (totalLength p - 32) / 20 := hk6.trans hcount
  have hcmd : out'.command = p.getD 28 0 := by rw [hk8, if_pos (by omega)]
  obtain ⟨-, h28, h29, h30, h31⟩ := hh
  obtain ⟨b, ha, -, hget⟩ := @assemble_holdsAt out' buffer (by rw [hnum]; exact hbuf)
  have hret : (4 + 20 * out'.numEntries) % 2 ^ 32 = 4 + 20 * ((totalLength p - 32) / 20) := by
    rw [hnum]; simp only [Nat.reducePow]; omega
  rw [hret] at ha
  refine ⟨b, ha, fun j hj => ?_⟩
  rw [hget j, if_pos (by rw [encodedBytes_length, hnum]; omega), Nat.sub_zero]
  by_cases hj4 : j < 4
  · have h256 : p.getD 28 0 % 256 = p.getD 28 0 := by omega
    interval_cases j
    · show out'.command % 256 = _
      rw [hcmd, h256]
    · exact h29.symm
    · exact h30.symm
    · exact h31.symm
  · obtain ⟨i, d, hd, rfl⟩ : ∃ i d, d < 20 ∧ j = 4 + 20 * i + d :=
      ⟨(j - 4) / 20, (j - 4) % 20, Nat.mod_lt _ (by omega), by omega⟩
    have hi : i < (totalLength p - 32) / 20 := by omega
    rw [encodedBytes_entry out' (by rw [hnum]; exact hi) hd,
      entryBytes_decoded hp hcmd h28 (hk3 i (Nat.zero_le _) (by omega))
        (by rw [hk7 i, if_pos ⟨Nat.zero_le _, by omega⟩]),
      getD_twenty (fun t => p.getD t 0) i d hd]
    congr 1
    omega

theorem decode_then_encode_witness :
    isBytes oneEntryResponse ∧
    disassemble oneEntryResponse 52 staleOutput =
      some (true, storeEntry oneEntryResponse 0 { staleOutput with numEntries := 1 }) ∧
    1 ≤ (totalLength oneEntryResponse - 32) / 20 ∧
    (totalLength oneEntryResponse - 32) / 20 ≤ 25 ∧
    4 + 20 * ((totalLength oneEntryResponse - 32) / 20) ≤ (List.replicate 24 7).length ∧
    ∃ b, assemble (storeEntry oneEntryResponse 0 { staleOutput with numEntries := 1 })
        (List.replicate 24 7) =
        some (4 + 20 * ((totalLength oneEntryResponse - 32) / 20), b) ∧
      ∀ j, j < 4 + 20 * ((totalLength oneEntryResponse - 32) / 20) →
        b.getD j 0 = oneEntryResponse.getD (28 + j) 0 :=
  ⟨by decide, rfl, by decide, by decide, by decide,
    decode_then_encode oneEntryResponse 52 staleOutput _ (List.replicate 24 7) (by decide) rfl
      (by decide) (by decide) (by decide)⟩

/-! ## The mask test -/

theorem or_pred_self_succ (m : Nat) (hm : 0 < m) :
    (m - 1) ||| m = 2 * ((m - 1) / 2 ||| m / 2) + 1 := by
  have hdiv : ((m - 1) ||| m) / 2 = (m - 1) / 2 ||| m / 2 := Nat.or_div_two
  have hmod : ((m - 1) ||| m) % 2 = 1 := by
    rw [Nat.or_mod_two_eq_one]
    omega
  omega

/-- For `0 < m < 2 ^ n`: `(m-1)|m` has its `n` low bits set exactly when `m` is a run of ones
followed by `k < n` zeros. -/
theorem or_pred_eq_ones_iff : ∀ (n m : Nat), 0 < m → m < 2 ^ n →
    ((m - 1) ||| m = 2 ^ n - 1 ↔ ∃ k, k < n ∧ m = 2 ^ n - 2 ^ k) := by
  intro n
  induction n with
  | zero => intro m h0 h1; simp at h1; omega
  | succ n ih =>
    intro m h0 hlt
    have hpow : 2 ^ (n + 1) = 2 * 2 ^ n := by rw [Nat.pow_succ]; omega
    have hpos : 0 < 2 ^ n := Nat.pow_pos (by decide)
    rw [or_pred_self_succ m h0]
    rcases Nat.mod_two_eq_zero_or_one m with hev | hodd
    · -- `m = 2 * q` with `0 < q < 2 ^ n`
      have hq0 : 0 < m / 2 := by omega
      have hq1 : m / 2 < 2 ^ n := by omega
      have hpred : (m - 1) / 2 = m / 2 - 1 := by omega
      rw [hpred]
      have hih := ih (m / 2) hq0 hq1
      constructor
      · intro h
        have h2 : (m / 2 - 1) ||| m / 2 = 2 ^ n - 1 := by omega
        obtain ⟨k, hk, hkm⟩ := hih.mp h2
        have hk2 : 2 ^ (k + 1) = 2 * 2 ^ k := by rw [Nat.pow_succ]; omega
        exact ⟨k + 1, by omega, by omega⟩
      · rintro ⟨k, hk, hkm⟩
        cases k with
        | zero => simp at hkm; omega
        | succ k =>
          have hk2 : 2 ^ (k + 1) = 2 * 2 ^ k := by rw [Nat.pow_succ]; omega
          have h2 := hih.mpr ⟨k, by omega, by omega⟩
          omega
    · -- `m` odd: `(m-1)|m = m`
      have hpred : (m - 1) / 2 = m / 2 := by omega
      rw [hpred, Nat.or_self]
      constructor
      · intro h
        exact ⟨0, by omega, by simp; omega⟩
      · rintro ⟨k, hk, hkm⟩
        cases k with
        | zero => simp at hkm; omega
        | succ k =>
          have hk2 : 2 ^ (k + 1) = 2 * 2 ^ k := by rw [Nat.pow_succ]; omega
          omega

theorem maskOk_iff_run {m : Nat} (hm : m < 2 ^ 32) :
    maskOk m ↔ ∃ k, k ≤ 32 ∧ m = 2 ^ 32 - 2 ^ k := by
  rcases Nat.eq_zero_or_pos m with rfl | hpos
  · constructor
    · intro _; exact ⟨32, le_refl _, by simp⟩
    · intro _; decide
  · have hwrap : (m + 2 ^ 32 - 1) % 2 ^ 32 = m - 1 := by
      simp only [Nat.reducePow] at hm ⊢; omega
    unfold maskOk
    rw [hwrap, show (0xffffffff : Nat) = 2 ^ 32 - 1 by decide, or_pred_eq_ones_iff 32 m hpos hm]
    constructor
    · rintro ⟨k, hk, hkm⟩; exact ⟨k, by omega, hkm⟩
    · rintro ⟨k, hk, hkm⟩
      refine ⟨k, ?_, hkm⟩
      rcases Nat.lt_or_ge k 32 with h | h
      · exact h
      · have : k = 32 := by omega
        subst this
        simp at hkm; omega

/-- C17 (mask test).  For every 32-bit `m` the test `((m - 1) mod 2^32) | m = 0xFFFFFFFF` holds
if and only if `m = 2^32 - 2^k` for some `k` in `0..32`; the masks 255.0.255.0 and `0x00FF00FF`
fail it, every prefix mask `/0 .. /32` passes it, and an entry whose wire mask fails it fails the
entry conditions. -/
theorem mask_test_characterisation (m : Nat) (hm : m < 2 ^ 32) :
    (maskOk m ↔ ∃ k, k ≤ 32 ∧ m = 2 ^ 32 - 2 ^ k) ∧
    (m = 0xFF00FF00 ∨ m = 0x00FF00FF → ¬ maskOk m) ∧
    ((∃ l, l ≤ 32 ∧ m = 2 ^ 32 - 2 ^ (32 - l)) → maskOk m) ∧
    (∀ (p : List Nat) (i : Nat), be32 p (40 + 20 * i) = m → ¬ maskOk m → ¬ entryOk p i) := by
  refine ⟨maskOk_iff_run hm, ?_, ?_, ?_⟩
  · rintro (rfl | rfl) <;> decide
  · rintro ⟨l, hl, rfl⟩
    exact (maskOk_iff_run hm).mpr ⟨32 - l, by omega, rfl⟩
  · intro p i hbe hno hok
    exact hno (hbe ▸ hok.2.2.2.2.1)

theorem mask_test_characterisation_witness :
    0xFFFFFF00 < 2 ^ 32 ∧
    ((maskOk 0xFFFFFF00 ↔ ∃ k, k ≤ 32 ∧ 0xFFFFFF00 = 2 ^ 32 - 2 ^ k) ∧
    (0xFFFFFF00 = 0xFF00FF00 ∨ 0xFFFFFF00 = 0x00FF00FF → ¬ maskOk 0xFFFFFF00) ∧
    ((∃ l, l ≤ 32 ∧ 0xFFFFFF00 = 2 ^ 32 - 2 ^ (32 - l)) → maskOk 0xFFFFFF00) ∧
    (∀ (p : List Nat) (i : Nat), be32 p (40 + 20 * i) = 0xFFFFFF00 → ¬ maskOk 0xFFFFFF00 →
      ¬ entryOk p i)) :=
  ⟨by decide, mask_test_characterisation 0xFFFFFF00 (by decide)⟩

/-! ## The checksum against the reference sum -/

theorem isBytes_set {p : List Nat} (hp : isBytes p) (i : Nat) {v : Nat} (hv : v < 256) :
    isBytes (p.set i v) := by
  intro b hb
  rcases List.mem_or_eq_of_mem_set hb with h | h
  · exact hp b h
  · omega

theorem isBytes_zeroChecksum {p : List Nat} (hp : isBytes p) : isBytes (zeroChecksum p) :=
  isBytes_set (isBytes_set hp 10 (by decide)) 11 (by decide)

theorem endAround_le (T : Nat) : endAround T ≤ 65535 := by
  unfold endAround
  split_ifs <;> omega

theorem endAround_add (T w : Nat) (hw : w ≤ 65535) :
    endAround (T + w) =
      if endAround T + w < 65536 then endAround T + w else endAround T + w - 65535 := by
  unfold endAround
  by_cases hT : T = 0
  · subst hT
    by_cases hw0 : w = 0
    · subst hw0; rfl
    · rw [if_neg (by omega), if_pos rfl, if_pos (by omega)]
      omega
  · rw [if_neg (by omega), if_neg hT]
    split_ifs <;> omega

theorem sumStep_eq {p : List Nat} (hp : isBytes p) {i c : Nat} (hi : i + 1 < p.length)
    (hc : c ≤ 65535) :
    sumStep p i c =
      some (if c + be16 p i < 65536 then c + be16 p i else c + be16 p i - 65535) := by
  have h0 := getD_lt_of_isBytes hp i
  have h1 := getD_lt_of_isBytes hp (i + 1)
  unfold sumStep
  rw [rd_eq hi, rd_eq (show i < p.length by omega)]
  simp only [Option.some_bind]
  have e : (c + p.getD (i + 1) 0 + p.getD i 0 <<< 8) % 2 ^ 32 = c + be16 p i := by
    simp only [Nat.shiftLeft_eq, Nat.reducePow, be16]
    omega
  rw [e, foldCarry_two _ (by simp only [be16]; omega)]

/-- Folding the carry after every word is one end-around-carry reduction of the total. -/
theorem sumLoop_wordSum {z : List Nat} (hz : isBytes z) :
    ∀ (m a c : Nat), 2 * (a + m) ≤ z.length → c = endAround (wordSum z a) →
      sumLoop z (2 * m) (2 * a) c = some (endAround (wordSum z (a + m))) := by
  intro m
  induction m with
  | zero => intro a c _ hc; rw [hc]; rfl
  | succ m ih =>
    intro a c hlen hc
    have hword : be16 z (2 * a) ≤ 65535 := by
      have h0 := getD_lt_of_isBytes hz (2 * a)
      have h1 := getD_lt_of_isBytes hz (2 * a + 1)
      simp only [be16]; omega
    rw [show 2 * (m + 1) = 2 * m + 2 by omega, sumLoop,
      sumStep_eq hz (show 2 * a + 1 < z.length by omega) (hc ▸ endAround_le _)]
    simp only [Option.some_bind]
    rw [show 2 * a + 2 = 2 * (a + 1) by omega, show a + (m + 1) = a + 1 + m by omega]
    apply ih (a + 1) _ (by omega)
    rw [wordSum, endAround_add _ _ hword, hc]

theorem sumLoop_reference {p : List Nat} (hp : isBytes p) (hl : headerLen p ≤ p.length) :
    sumLoop (zeroChecksum p) (headerLen p) 0 0 =
      some (endAround (wordSum (zeroChecksum p) (headerLen p / 2))) := by
  have hz := isBytes_zeroChecksum hp
  have hh : headerLen p = 2 * (headerLen p / 2) := by unfold headerLen; omega
  have := sumLoop_wordSum hz (headerLen p / 2) 0 0 (by rw [zeroChecksum_length]; omega) rfl
  rw [Nat.zero_add, Nat.mul_zero, ← hh] at this
  exact this

/-- C16 (validation against the reference checksum).  On a byte buffer holding at least
`max 12 L` bytes, `L = 4 * (byte0 % 16)`, `validateIPChecksum` returns true if and only if the
big-endian value originally in bytes 10-11 equals `0xFFFF - S`, where `S` is the end-around-carry
reduction of the plain sum `T` of the `L / 2` header words with bytes 10-11 taken as zero; and
before each word `j` is added the accumulator holds the reduction of the sum of the words before
it, so that after the addition it is at most `0x1FFFE`. -/
theorem validate_iff_reference (p : List Nat) (hp : isBytes p)
    (hlen : max 12 (4 * (p.getD 0 0 % 16)) ≤ p.length) :
    ∃ b z, validateIPChecksum p = some (b, z) ∧
      (b = true ↔
        p.getD 10 0 * 256 + p.getD 11 0 =
          0xFFFF - endAround (wordSum (zeroChecksum p) (headerLen p / 2))) ∧
      ∀ j, j < headerLen p / 2 →
        sumLoop (zeroChecksum p) (2 * j) 0 0 = some (endAround (wordSum (zeroChecksum p) j)) ∧
        endAround (wordSum (zeroChecksum p) j) + be16 (zeroChecksum p) (2 * j) ≤ 0x1FFFE := by
  have h12 : 12 ≤ p.length := by omega
  have hl : headerLen p ≤ p.length := by unfold headerLen; omega
  have hc := sumLoop_reference hp hl
  have h10 := getD_lt_of_isBytes hp 10
  have h11 := getD_lt_of_isBytes hp 11
  have hz := isBytes_zeroChecksum hp
  refine ⟨_, _, validate_eq p h12 hc, ?_, fun j hj => ⟨?_, ?_⟩⟩
  · have hle := endAround_le (wordSum (zeroChecksum p) (headerLen p / 2))
    rw [decide_eq_true_iff, onesComplement_eq _ (by omega)]
    omega
  · have := sumLoop_wordSum hz j 0 0 (by rw [zeroChecksum_length]; omega) rfl
    rw [Nat.zero_add, Nat.mul_zero] at this
    exact this
  · have hle := endAround_le (wordSum (zeroChecksum p) j)
    have h0 := getD_lt_of_isBytes hz (2 * j)
    have h1 := getD_lt_of_isBytes hz (2 * j + 1)
    simp only [be16]; omega

theorem validate_iff_reference_witness :
    isBytes sampleHeader ∧ max 12 (4 * (sampleHeader.getD 0 0 % 16)) ≤ sampleHeader.length ∧
    ∃ b z, validateIPChecksum sampleHeader = some (b, z) ∧
      (b = true ↔
        sampleHeader.getD 10 0 * 256 + sampleHeader.getD 11 0 =
          0xFFFF - endAround (wordSum (zeroChecksum sampleHeader) (headerLen sampleHeader / 2))) ∧
      ∀ j, j < headerLen sampleHeader / 2 →
        sumLoop (zeroChecksum sampleHeader) (2 * j) 0 0 =
          some (endAround (wordSum (zeroChecksum sampleHeader) j)) ∧
        endAround (wordSum (zeroChecksum sampleHeader) j) +
          be16 (zeroChecksum sampleHeader) (2 * j) ≤ 0x1FFFE :=
  ⟨by decide, by decide, validate_iff_reference sampleHeader (by decide) (by decide)⟩

/-! ## The success path of `forward` -/

/-- The buffer that `forward` leaves when the checksum is valid. -/
theorem forward_valid_eq {p z : List Nat} (hv : validateIPChecksum p = some (true, z)) :
    ∃ c8, sumLoop (zeroChecksum ((zeroChecksum p).set 8 ((p.getD 8 0 + 255) % 256)))
        (headerLen p) 0 0 = some c8 ∧
      forward p =
        some (true, ((zeroChecksum ((zeroChecksum p).set 8 ((p.getD 8 0 + 255) % 256))).set 10
          (onesComplement c8 / 256)).set 11 (onesComplement c8 % 256)) := by
  obtain ⟨h12, c, hc⟩ := validate_some_length hv
  have hz : z = zeroChecksum p := by
    rw [validate_eq p h12 hc] at hv
    simp only [Option.some.injEq, Prod.mk.injEq] at hv
    exact hv.2.symm
  have ht8 : (zeroChecksum p).getD 8 0 = p.getD 8 0 := by rw [zeroChecksum_getD]; simp
  set p8 := (zeroChecksum p).set 8 ((p.getD 8 0 + 255) % 256) with hp8
  have hlen8 : p8.length = p.length := by simp [hp8, zeroChecksum_length]
  have hh8 : headerLen p8 = headerLen p := by
    unfold headerLen
    rw [hp8, getD_set, zeroChecksum_getD]
    simp
  obtain ⟨c8, hc8⟩ := sumLoop_some_of_length (q := zeroChecksum p8)
    (by rw [zeroChecksum_length, hlen8, zeroChecksum_length]) hc 0
  refine ⟨c8, hc8, ?_⟩
  rw [← hh8] at hc8
  unfold forward
  rw [hv, hz]
  simp only [Option.some_bind, Bool.not_true, Bool.false_eq_true, if_false]
  rw [rd_eq (by rw [zeroChecksum_length]; omega), ht8]
  simp only [Option.some_bind]
  rw [wr_eq _ (by rw [zeroChecksum_length]; omega)]
  have e : (p.getD 8 0 + 256 - 1) % 256 = (p.getD 8 0 + 255) % 256 := by omega
  simp only [Option.some_bind, e]
  rw [← hp8, writeChecksum_eq p8 (by omega) hc8]
  rfl

/-- C15 (success of `forward`, no TTL floor).  If `validateIPChecksum` returns true on a byte
buffer then, whatever its byte 8, `forward` returns true; the resulting buffer has the same
length, differs from the input at most at bytes 8, 10 and 11, has byte 8 equal to
`(TTL - 1) mod 256` (255 for TTL 0), and holds in bytes 10-11, big-endian, `0xFFFF` minus the
end-around-carry sum of the words of the updated header with bytes 10-11 taken as zero. -/
theorem forward_success (p z : List Nat) (hp : isBytes p)
    (hv : validateIPChecksum p = some (true, z)) :
    ∃ q, forward p = some (true, q) ∧ q.length = p.length ∧
      (∀ i, i ≠ 8 → i ≠ 10 → i ≠ 11 → q.getD i 0 = p.getD i 0) ∧
      q.getD 8 0 = (p.getD 8 0 + 255) % 256 ∧ (p.getD 8 0 = 0 → q.getD 8 0 = 255) ∧
      q.getD 10 0 * 256 + q.getD 11 0 =
        0xFFFF - endAround (wordSum (zeroChecksum q) (headerLen q / 2)) := by
  obtain ⟨h12, c, hc⟩ := validate_some_length hv
  obtain ⟨c8, hc8, hf⟩ := forward_valid_eq hv
  set p8 := (zeroChecksum p).set 8 ((p.getD 8 0 + 255) % 256) with hp8
  set q := ((zeroChecksum p8).set 10 (onesComplement c8 / 256)).set 11 (onesComplement c8 % 256)
    with hq
  have hlen8 : p8.length = p.length := by simp [hp8, zeroChecksum_length]
  have hz8 : zeroChecksum p8 = p8 := by rw [hp8, zeroChecksum_set8, zeroChecksum_idem]
  have hb8 : isBytes p8 := isBytes_set (isBytes_zeroChecksum hp) 8 (Nat.mod_lt _ (by decide))
  have hh8 : headerLen p8 = headerLen p := by
    unfold headerLen
    rw [hp8, getD_set, zeroChecksum_getD]
    simp
  have hl : headerLen p ≤ p.length := by
    have h1 : (sumLoop (zeroChecksum p) (headerLen p) 0 0).isSome = true := by simp [hc]
    rw [sumLoop_isSome, zeroChecksum_length] at h1
    unfold headerLen at h1 ⊢
    omega
  have hzq : zeroChecksum q = zeroChecksum p8 := zeroChecksum_set_set p8 _ _
  have hhq : headerLen q = headerLen p := by
    unfold headerLen
    rw [hq, getD_set, getD_set, zeroChecksum_getD, hp8, getD_set, zeroChecksum_getD]
    simp
  have hq8 : q.getD 8 0 = (p.getD 8 0 + 255) % 256 := by
    rw [hq, getD_set, getD_set, hz8, hp8, getD_set, zeroChecksum_length]
    simp
    omega
  have href := sumLoop_reference hb8 (by rw [hh8, hlen8]; exact hl)
  rw [hh8] at href
  have hc8eq : c8 = endAround (wordSum (zeroChecksum p8) (headerLen p / 2)) :=
    Option.some.inj (hc8.symm.trans href)
  have hle := endAround_le (wordSum (zeroChecksum p8) (headerLen p / 2))
  have hoc : onesComplement c8 = 65535 - c8 := onesComplement_eq _ (by omega)
  refine ⟨q, hf, by simp [hq, zeroChecksum_length, hlen8], fun i h8 h10 h11 => ?_, hq8,
    fun h0 => by rw [hq8, h0], ?_⟩
  · rw [hq, getD_set, getD_set, if_neg (by omega), if_neg (by omega), hz8, hp8, getD_set,
      if_neg (by omega), zeroChecksum_getD, if_neg (by omega)]
  · have h10 : q.getD 10 0 = onesComplement c8 / 256 := by
      rw [hq, getD_set, getD_set, List.length_set, zeroChecksum_length, hlen8]
      simp; omega
    have h11 : q.getD 11 0 = onesComplement c8 % 256 := by
      rw [hq, getD_set, List.length_set, zeroChecksum_length, hlen8]
      simp; omega
    rw [h10, h11, hzq, hhq, ← hc8eq, hoc]
    omega

theorem forward_success_witness :
    isBytes ttlZeroHeader ∧
    validateIPChecksum ttlZeroHeader = some (true, zeroChecksum ttlZeroHeader) ∧
    ∃ q, forward ttlZeroHeader = some (true, q) ∧ q.length = ttlZeroHeader.length ∧
      (∀ i, i ≠ 8 → i ≠ 10 → i ≠ 11 → q.getD i 0 = ttlZeroHeader.getD i 0) ∧
      q.getD 8 0 = (ttlZeroHeader.getD 8 0 + 255) % 256 ∧
      (ttlZeroHeader.getD 8 0 = 0 → q.getD 8 0 = 255) ∧
      q.getD 10 0 * 256 + q.getD 11 0 =
        0xFFFF - endAround (wordSum (zeroChecksum q) (headerLen q / 2)) :=
  ⟨by decide, by decide,
    forward_success ttlZeroHeader (zeroChecksum ttlZeroHeader) (by decide) (by decide)⟩

/-! ## Single-bit errors -/

set_option maxRecDepth 1000000 in
theorem xor_bit_byte : ∀ b, b < 256 → ∀ k, k < 8 →
    (b ^^^ 2 ^ k < 256 ∧ ((b ^^^ 2 ^ k) = b + 2 ^ k ∨ (b ^^^ 2 ^ k) + 2 ^ k = b) ∧
      (4 ≤ k → (b ^^^ 2 ^ k) % 16 = b % 16)) := by
  decide

theorem zeroChecksum_set_ne (p : List Nat) {i : Nat} (v : Nat) (h10 : i ≠ 10) (h11 : i ≠ 11) :
    zeroChecksum (p.set i v) = (zeroChecksum p).set i v := by
  apply List.ext_getElem?
  intro j
  simp only [zeroChecksum, List.getElem?_set, List.length_set]
  split_ifs <;> first | rfl | (exfalso; omega)

theorem zeroChecksum_set_field (p : List Nat) {i : Nat} (v : Nat) (h : i = 10 ∨ i = 11) :
    zeroChecksum (p.set i v) = zeroChecksum p := by
  apply List.ext_getElem?
  intro j
  simp only [zeroChecksum, List.getElem?_set, List.length_set]
  rcases h with rfl | rfl <;> split_ifs <;> rfl

/-- Replacing byte `i` moves the sum of the first `m` words by the change of the byte, weighted
256 for an even index and 1 for an odd one, when the byte lies in these words. -/
theorem wordSum_set (z : List Nat) (i v w : Nat) (hi : i < z.length)
    (hw : w = if i % 2 = 0 then 256 else 1) (m : Nat) :
    (m ≤ i / 2 → wordSum (z.set i v) m = wordSum z m) ∧
    (i / 2 < m → wordSum (z.set i v) m + w * z.getD i 0 = wordSum z m + w * v) := by
  induction m with
  | zero => exact ⟨fun _ => rfl, fun h => absurd h (by omega)⟩
  | succ m ih =>
    have e0 : (z.set i v).getD (2 * m) 0 = if i = 2 * m then v else z.getD (2 * m) 0 := by
      rw [getD_set]
      by_cases h : i = 2 * m
      · rw [if_pos ⟨h, hi⟩, if_pos h]
      · rw [if_neg (fun hh => h hh.1), if_neg h]
    have e1 : (z.set i v).getD (2 * m + 1) 0 =
        if i = 2 * m + 1 then v else z.getD (2 * m + 1) 0 := by
      rw [getD_set]
      by_cases h : i = 2 * m + 1
      · rw [if_pos ⟨h, hi⟩, if_pos h]
      · rw [if_neg (fun hh => h hh.1), if_neg h]
    simp only [wordSum, be16, e0, e1]
    constructor
    · intro hm
      rw [ih.1 (by omega), if_neg (by omega), if_neg (by omega)]
    · intro hm
      rcases Nat.lt_or_ge (i / 2) m with hlt | hge
      · have := ih.2 hlt
        rw [if_neg (by omega), if_neg (by omega)]
        omega
      · have := ih.1 hge
        rw [this]
        rcases Nat.mod_two_eq_zero_or_one i with hev | hodd
        · rw [if_pos hev] at hw
          subst hw
          have hi2 : i = 2 * m := by omega
          rw [if_pos hi2, if_neg (by omega), ← hi2]
          omega
        · rw [if_neg (by omega)] at hw
          subst hw
          have hi2 : i = 2 * m + 1 := by omega
          rw [if_neg (by omega), if_pos hi2, ← hi2]
          omega

theorem endAround_ne (T d : Nat) (h0 : 0 < d) (h1 : d < 65535) :
    endAround (T + d) ≠ endAround T := by
  unfold endAround
  by_cases hT : T = 0
  · subst hT
    rw [if_neg (by omega), if_pos rfl]
    omega
  · rw [if_neg (by omega), if_neg hT]
    omega

theorem validate_some_headerLen {p : List Nat} {r : Bool × List Nat}
    (h : validateIPChecksum p = some r) : 12 ≤ p.length ∧ headerLen p ≤ p.length := by
  obtain ⟨h12, c, hc⟩ := validate_some_length h
  have h1 : (sumLoop (zeroChecksum p) (headerLen p) 0 0).isSome = true := by simp [hc]
  rw [sumLoop_isSome, zeroChecksum_length] at h1
  refine ⟨h12, ?_⟩
  unfold headerLen at h1 ⊢
  omega

/-- C14 (counterexample).  `nibbleHeader` validates, and so does the buffer obtained from it by
flipping bit 0 of byte 0 (header length 5 words becomes 4): the two words that leave the sum add
up, with the change of byte 0, to a multiple of `0xFFFF`. -/
theorem header_length_flip_undetected :
    validateIPChecksum nibbleHeader = some (true, zeroChecksum nibbleHeader) ∧
    flipBit nibbleHeader 0 0 =
      [0x44, 0x00, 0x00, 0x14, 0x00, 0x00, 0x00, 0x00, 0x40, 0x11, 0x71, 0xd9,
       0x0a, 0x00, 0x00, 0x01, 0xfe, 0xff, 0x00, 0x00] ∧
    0 < 4 * (nibbleHeader.getD 0 0 % 16) ∧
    validateIPChecksum (flipBit nibbleHeader 0 0) =
      some (true, zeroChecksum (flipBit nibbleHeader 0 0)) := by
  decide

/-- C14 (amended).  If `validateIPChecksum` returns true on a byte buffer, then flipping bit
`k < 8` of byte `i`, where `i` is a header byte (`i < 4 * (byte0 % 16)`) or a byte of the
checksum field (`i = 10` or `i = 11`), and where the bit is not one of the four low bits of
byte 0 (the header-length nibble), yields a buffer on which `validateIPChecksum` returns
false. -/
theorem single_bit_flip_detected (p z : List Nat) (i k : Nat) (hp : isBytes p)
    (hv : validateIPChecksum p = some (true, z)) (hk : k < 8)
    (hi : i < headerLen p ∨ i = 10 ∨ i = 11) (hnib : i = 0 → 4 ≤ k) :
    validateIPChecksum (flipBit p i k) = some (false, zeroChecksum (flipBit p i k)) := by
  obtain ⟨h12, hl⟩ := validate_some_headerLen hv
  have hilen : i < p.length := by omega
  obtain ⟨hb256, hchg, hnibble⟩ := xor_bit_byte (p.getD i 0) (getD_lt_of_isBytes hp i) k hk
  have h2k : 1 ≤ 2 ^ k ∧ 2 ^ k ≤ 128 :=
    ⟨Nat.one_le_two_pow, (Nat.pow_le_pow_right (by decide) (show k ≤ 7 by omega))⟩
  generalize hb' : p.getD i 0 ^^^ 2 ^ k = b' at hb256 hchg hnibble
  have hq : flipBit p i k = p.set i b' := by unfold flipBit; rw [hb']
  rw [hq]
  have hbq : isBytes (p.set i b') := isBytes_set hp i hb256
  have hlenq : (p.set i b').length = p.length := List.length_set _ _ _
  have hhq : headerLen (p.set i b') = headerLen p := by
    unfold headerLen
    rw [getD_set]
    by_cases h0 : i = 0
    · subst h0
      rw [if_pos ⟨rfl, hilen⟩, hnibble (hnib rfl)]
    · rw [if_neg (fun hh => h0 hh.1)]
  have h10 := getD_lt_of_isBytes hp 10
  have h11 := getD_lt_of_isBytes hp 11
  -- the original buffer validates
  have hrefp := sumLoop_reference hp hl
  have hvp := validate_eq p h12 hrefp
  rw [hv] at hvp
  have hokp : onesComplement (endAround (wordSum (zeroChecksum p) (headerLen p / 2))) =
      (p.getD 10 0 * 256 + p.getD 11 0) % 65536 := by
    have := (Prod.mk.inj (Option.some.inj hvp)).1
    exact of_decide_eq_true this.symm
  have hlep := endAround_le (wordSum (zeroChecksum p) (headerLen p / 2))
  rw [onesComplement_eq _ (by omega)] at hokp
  -- the flipped buffer
  have hrefq := sumLoop_reference hbq (by rw [hhq, hlenq]; exact hl)
  rw [validate_eq _ (by rw [hlenq]; exact h12) hrefq, hhq]
  have hleq := endAround_le (wordSum (zeroChecksum (p.set i b')) (headerLen p / 2))
  rw [onesComplement_eq _ (by omega)]
  have hne : ¬ (65535 - endAround (wordSum (zeroChecksum (p.set i b')) (headerLen p / 2)) =
      ((p.set i b').getD 10 0 * 256 + (p.set i b').getD 11 0) % 65536) := by
    by_cases hfield : i = 10 ∨ i = 11
    · rw [zeroChecksum_set_field p b' hfield, getD_set, getD_set]
      rcases hfield with rfl | rfl
      · rw [if_pos ⟨rfl, hilen⟩, if_neg (by omega)]
        omega
      · rw [if_neg (by omega), if_pos ⟨rfl, hilen⟩]
        omega
    · have hi10 : i ≠ 10 := fun h => hfield (Or.inl h)
      have hi11 : i ≠ 11 := fun h => hfield (Or.inr h)
      have hih : i < headerLen p := by omega
      have hzi : (zeroChecksum p).getD i 0 = p.getD i 0 := by
        rw [zeroChecksum_getD, if_neg (by omega)]
      rw [zeroChecksum_set_ne p b' hi10 hi11, getD_set, getD_set, if_neg (by omega),
        if_neg (by omega)]
      have hhalf : i / 2 < headerLen p / 2 := by unfold headerLen at hih ⊢; omega
      have hleq' := endAround_le (wordSum ((zeroChecksum p).set i b') (headerLen p / 2))
      have hend : endAround (wordSum ((zeroChecksum p).set i b') (headerLen p / 2)) ≠
          endAround (wordSum (zeroChecksum p) (headerLen p / 2)) := by
        obtain ⟨w, hw, hw1⟩ : ∃ w, (w = if i % 2 = 0 then 256 else 1) ∧ (w = 256 ∨ w = 1) := by
          rcases Nat.mod_two_eq_zero_or_one i with hev | hodd
          · exact ⟨256, by rw [if_pos hev], Or.inl rfl⟩
          · exact ⟨1, by rw [if_neg (by omega)], Or.inr rfl⟩
        have hws := (wordSum_set (zeroChecksum p) i b' w
          (by rw [zeroChecksum_length]; exact hilen) hw (headerLen p / 2)).2 hhalf
        rw [hzi] at hws
        generalize wordSum ((zeroChecksum p).set i b') (headerLen p / 2) = Tq at hws ⊢
        generalize wordSum (zeroChecksum p) (headerLen p / 2) = Tp at hws ⊢
        generalize 2 ^ k = d at h2k hchg
        clear hokp hlep hleq hleq' hrefp hrefq hvp
        rcases hw1 with rfl | rfl
        · rcases hchg with hup | hdown
          · have e : Tq = Tp + 256 * d := by omega
            rw [e]
            exact endAround_ne Tp (256 * d) (by omega) (by omega)
          · have e : Tp = Tq + 256 * d := by omega
            rw [e]
            exact (endAround_ne Tq (256 * d) (by omega) (by omega)).symm
        · rcases hchg with hup | hdown
          · have e : Tq = Tp + d := by omega
            rw [e]
            exact endAround_ne Tp d (by omega) (by omega)
          · have e : Tp = Tq + d := by omega
            rw [e]
            exact (endAround_ne Tq d (by omega) (by omega)).symm
      generalize endAround (wordSum ((zeroChecksum p).set i b') (headerLen p / 2)) = sq
        at hend hleq' ⊢
      generalize endAround (wordSum (zeroChecksum p) (headerLen p / 2)) = sp at hend hokp hlep
      omega
  rw [decide_eq_false hne]

theorem single_bit_flip_detected_witness :
    isBytes sampleHeader ∧
    validateIPChecksum sampleHeader = some (true, zeroChecksum sampleHeader) ∧ 7 < 8 ∧
    (0 < headerLen sampleHeader ∨ 0 = 10 ∨ 0 = 11) ∧ (0 = 0 → 4 ≤ 7) ∧
    validateIPChecksum (flipBit sampleHeader 0 7) =
      some (false, zeroChecksum (flipBit sampleHeader 0 7)) :=
  ⟨by decide, by decide, by decide, by decide, by decide,
    single_bit_flip_detected sampleHeader (zeroChecksum sampleHeader) 0 7 (by decide) (by decide)
      (by decide) (by decide) (by decide)⟩

/-! ## Lengths that do not fit the entry grid, and short buffers -/

/-- C18 (counterexample).  `partialTailResponse` has total length 61, so `(T - 32) mod 20 = 9`,
and `disassemble` returns true on it, with `numEntries = 1`. -/
theorem partial_tail_accepted :
    totalLength partialTailResponse = 61 ∧ (totalLength partialTailResponse - 32) % 20 ≠ 0 ∧
    partialTailResponse.length = 61 ∧
    (disassemble partialTailResponse 61 staleOutput).map (fun r => (r.1, r.2.numEntries)) =
      some (true, 1) := by
  decide

/-- C18 (amended).  On a byte buffer of at least 32 bytes whose total length `T >= 32` has
`(T - 32) mod 20 != 0` and whose first `T` bytes are present, `disassemble` does not reject on
that ground: it returns true exactly when the header checks and the checks of the
`(T - 32) / 20` complete entries pass, the trailing `(T - 32) mod 20` bytes being ignored, and
then `numEntries = (T - 32) / 20`. -/
theorem partial_tail_ignored (p : List Nat) (len : Nat) (out : RipPacket) (hp : isBytes p)
    (h32 : 32 ≤ p.length) (hT : 32 ≤ totalLength p) (hpres : totalLength p ≤ p.length)
    (hpart : (totalLength p - 32) % 20 ≠ 0) :
    ∃ b out', disassemble p len out = some (b, out') ∧
      (b = true ↔ headerOk p len ∧ ∀ i, i < (totalLength p - 32) / 20 → entryOk p i) ∧
      (b = true → out'.numEntries = (totalLength p - 32) / 20 ∧
        32 + 20 * out'.numEntries < totalLength p) := by
  obtain ⟨⟨b, out'⟩, h⟩ := disassemble_exists hp h32 hT hpres len out
  have hiff := disassemble_true_iff hp h
  have hcount := entryCount_eq hT (totalLength_lt hp)
  rw [hcount] at hiff
  refine ⟨b, out', h, hiff, fun hb => ?_⟩
  subst hb
  obtain ⟨k, -, -, -, -, -, hk6, -⟩ :=
    entriesLoop_some hp _ _ _ _ _ ((disassemble_some h).2 (hiff.mp rfl).1)
  have hnum : out'.numEntries = (totalLength p - 32) / 20 := hk6.trans hcount
  refine ⟨hnum, ?_⟩
  rw [hnum]
  omega

theorem partial_tail_ignored_witness :
    isBytes partialTailResponse ∧ 32 ≤ partialTailResponse.length ∧
    32 ≤ totalLength partialTailResponse ∧
    totalLength partialTailResponse ≤ partialTailResponse.length ∧
    (totalLength partialTailResponse - 32) % 20 ≠ 0 ∧
    ∃ b out', disassemble partialTailResponse 61 staleOutput = some (b, out') ∧
      (b = true ↔ headerOk partialTailResponse 61 ∧
        ∀ i, i < (totalLength partialTailResponse - 32) / 20 → entryOk partialTailResponse i) ∧
      (b = true → out'.numEntries = (totalLength partialTailResponse - 32) / 20 ∧
        32 + 20 * out'.numEntries < totalLength partialTailResponse) :=
  ⟨by decide, by decide, by decide, by decide, by decide,
    partial_tail_ignored partialTailResponse 61 staleOutput (by decide) (by decide) (by decide)
      (by decide) (by decide)⟩

/-- Reads stay inside a buffer of exactly `len` bytes when the declared total length exceeds
`len` or is at least 32. -/
theorem disassemble_reads_bounded {p : List Nat} (hp : isBytes p) (h4 : 4 ≤ p.length)
    (hT : p.length < totalLength p ∨ 32 ≤ totalLength p) (out : RipPacket) :
    ∃ r, disassemble p p.length out = some r := by
  by_cases hgt : p.length < totalLength p
  · unfold disassemble
    rw [rd16_eq (show 2 < p.length by omega) (show 3 < p.length by omega), ← totalLength_eq]
    simp only [Option.some_bind]
    rw [if_pos hgt]
    exact ⟨_, rfl⟩
  · exact disassemble_exists hp (by omega) (by omega) (by omega) _ out

/-- C20 (the code at the failing input).  On the 4-byte buffer `fourByteBuffer` with `len = 4`
the total length 4 passes the length check and the next read, `packet[28]`, is outside the
buffer; on the 52-byte buffer `zeroLengthResponse` with `len = 52` the total length 0 gives
`numEntries = 4294967295`, the first entry passes, and the read of the second entry at index 52
is outside the buffer. -/
theorem decode_reads_past_buffer :
    fourByteBuffer.length = 4 ∧ totalLength fourByteBuffer = 4 ∧
    rd fourByteBuffer 28 = none ∧
    (disassemble fourByteBuffer 4 staleOutput).isSome = false ∧
    zeroLengthResponse.length = 52 ∧ totalLength zeroLengthResponse = 0 ∧
    entryCount 0 = 4294967295 ∧
    (entryStep zeroLengthResponse 0 staleOutput).map Prod.fst = some true ∧
    rd zeroLengthResponse 52 = none ∧
    (disassemble zeroLengthResponse 52 staleOutput).isSome = false := by
  decide

end Router
